import Mathlib

/-!
Verification of `simple_utils.py` (IMGW climate-data ETL helpers).

The Python module is shallowly embedded here:
* regular expressions that the module applies via `re.match` / `re.findall`
  are embedded through a small backtracking matcher (`matchFrom`) that follows
  CPython `re` semantics for the fragment the module uses: matching anchored
  at the start (`^` / `re.match`), alternatives tried left to right, greedy
  character star with backtracking, `.` matching any character except a
  newline, and `$` matching at the end of the string or just before a final
  newline;
* character classes (`\w`, `\s`, `\d`, the Polish-letter classes) are
  embedded as Boolean predicates on `Char`, restricted to the character
  repertoire the data files use (ASCII plus the Polish letters and the
  symbols `%`, `°`, `|`); outside that repertoire the Unicode classes of
  CPython are larger, but no claim involves such characters;
* HTML values produced by BeautifulSoup are embedded as a `Node` tree with
  `find` / `find_all` / `.string` translated from the documented bs4
  behaviour; pandas dataframes as a `DF` structure; the filesystem seen by
  `os.walk` / `os.remove` / `os.rmdir` as an `Entry` tree;
* Python functions that can raise return `Option` / `Except`, with `none` /
  `.error` marking the raised exception propagating to the caller.
-/

/-! ### Character classes used by the module's regular expressions -/

/-- ASCII uppercase letter, the `A-Z` range. -/
def isAsciiUpper (c : Char) : Bool := 'A' ≤ c && c ≤ 'Z'

/-- ASCII lowercase letter, the `a-z` range. -/
def isAsciiLower (c : Char) : Bool := 'a' ≤ c && c ≤ 'z'

/-- ASCII digit, the `\d` class restricted to the repertoire in use. -/
def isDigitCh (c : Char) : Bool := '0' ≤ c && c ≤ '9'

/-- The uppercase Polish letters enumerated in the source pattern
`[A-ZĄĘĆŃŻŹŚĆ]` (the source lists `Ć` twice). -/
def isPolishUpper (c : Char) : Bool :=
  c = 'Ą' || c = 'Ę' || c = 'Ć' || c = 'Ń' || c = 'Ż' || c = 'Ź' || c = 'Ś'

/-- The lowercase Polish letters enumerated in the source pattern
`[ąęćńżźść]` (the source lists `ć` twice). -/
def isPolishLower (c : Char) : Bool :=
  c = 'ą' || c = 'ę' || c = 'ć' || c = 'ń' || c = 'ż' || c = 'ź' || c = 'ś'

/-- The class `[A-ZĄĘĆŃŻŹŚĆ]` opening Pattern A of the header extractor. -/
def classUpperA (c : Char) : Bool := isAsciiUpper c || isPolishUpper c

/-- The class `[A-ZĄĘĆŃŻŹŚĆa-ząęćńżźść]` of Latin/Polish letters. -/
def classLetter (c : Char) : Bool :=
  isAsciiUpper c || isPolishUpper c || isAsciiLower c || isPolishLower c

/-- The class `[A-ZĄĘĆŃŻŹŚĆa-ząęćńżźść%°|]` inside Pattern A. -/
def classEndA (c : Char) : Bool := classLetter c || c = '%' || c = '°' || c = '|'

/-- `\w` (word character), restricted to the ASCII/Polish repertoire. -/
def isWordChar (c : Char) : Bool :=
  isAsciiUpper c || isAsciiLower c || isDigitCh c || c = '_' ||
    isPolishUpper c || isPolishLower c

/-- `\s` (whitespace), the ASCII portion of the class. -/
def isSpaceChar (c : Char) : Bool :=
  c = ' ' || c = '\t' || c = '\n' || c = '\r' || c = '\x0b' || c = '\x0c'

/-- `.` without `re.DOTALL`: any character except a newline. -/
def notNL (c : Char) : Bool := c ≠ '\n'

/-! ### A backtracking matcher for the regex fragment the module uses -/

/-- The regex fragment used by `simple_utils.py`: single-character classes,
concatenation, ordered alternation, greedy star over a character class, and
the `$` anchor. -/
inductive RE where
  | cls (p : Char → Bool)
  | seq (a b : RE)
  | alt (a b : RE)
  | star (p : Char → Bool)
  | eol
deriving Inhabited

/-- Length of the maximal run of characters satisfying `p` at the head of a
list: how much a greedy `p*` consumes before backtracking. -/
def runP (p : Char → Bool) : List Char → Nat
  | [] => 0
  | c :: r => if p c then runP p r + 1 else 0

/-- Backtracking for a greedy star: try the continuation after consuming
`m` characters, then `m - 1`, … down to `0`. -/
def tryBack (k : Nat → Option Nat) (i : Nat) : Nat → Option Nat
  | 0 => k i
  | m + 1 => (k (i + (m + 1))).orElse fun _ => tryBack k i m

/-- CPython-style backtracking matcher: `matchFrom s r i k` attempts to match
`r` in `s` starting at index `i` and passes the end index to the continuation
`k`; the overall result is the end index of the whole match, `none` when no
alternative succeeds. -/
def matchFrom (s : List Char) : RE → Nat → (Nat → Option Nat) → Option Nat
  | .cls p, i, k =>
    match s[i]? with
    | some c => if p c then k (i + 1) else none
    | none => none
  | .seq a b, i, k => matchFrom s a i fun j => matchFrom s b j k
  | .alt a b, i, k => (matchFrom s a i k).orElse fun _ => matchFrom s b i k
  | .star p, i, k => tryBack k i (runP p (s.drop i))
  | .eol, i, k =>
    if i = s.length ∨ (i + 1 = s.length ∧ s[i]? = some '\n') then k i else none

/-- End index of the match of `re.match(r, s)` (anchored at the start),
`none` when the regex does not match. -/
def reMatchEnd (r : RE) (s : List Char) : Option Nat := matchFrom s r 0 some

/-- Truthiness of `re.match(r, s)`. -/
def reMatchB (r : RE) (s : List Char) : Bool := (reMatchEnd r s).isSome

/-! ### The concrete patterns of `simple_utils.py` -/

/-- The separator pattern `(\s+\n)|(\n)` of `get_headers_from_info_file`. -/
def sepRE : RE :=
  .alt (.seq (.cls isSpaceChar) (.seq (.star isSpaceChar) (.cls (· = '\n'))))
    (.cls (· = '\n'))

/-- Pattern A of `get_headers_from_info_file`:
`^[A-ZĄĘĆŃŻŹŚĆ].*[A-ZĄĘĆŃŻŹŚĆa-ząęćńżźść%°|]]` — note the doubled `]`:
the character class is followed by a literal closing bracket. -/
def patternA : RE :=
  .seq (.cls classUpperA)
    (.seq (.star notNL) (.seq (.cls classEndA) (.cls (· = ']'))))

/-- Pattern B of `get_headers_from_info_file`:
`^[\WA-Z].*[A-ZĄĘĆŃŻŹŚĆa-ząęćńżźść]`. -/
def patternB : RE :=
  .seq (.cls fun c => !isWordChar c || isAsciiUpper c)
    (.seq (.star notNL) (.cls classLetter))

/-- The info-file pattern `(\w+).txt$` of `get_info_files_from_table`
(the dot is unescaped: it matches any non-newline character). -/
def infoRE : RE :=
  .seq (.cls isWordChar)
    (.seq (.star isWordChar)
      (.seq (.cls notNL)
        (.seq (.cls (· = 't')) (.seq (.cls (· = 'x')) (.seq (.cls (· = 't')) .eol)))))

/-- The date-directory pattern `^\d{4}\/$|^\d{4}\_\d{4}\/$` of
`get_dates_from_table`. -/
def dateRE : RE :=
  .alt
    (.seq (.cls isDigitCh) (.seq (.cls isDigitCh) (.seq (.cls isDigitCh)
      (.seq (.cls isDigitCh) (.seq (.cls (· = '/')) .eol)))))
    (.seq (.cls isDigitCh) (.seq (.cls isDigitCh) (.seq (.cls isDigitCh)
      (.seq (.cls isDigitCh) (.seq (.cls (· = '_'))
        (.seq (.cls isDigitCh) (.seq (.cls isDigitCh) (.seq (.cls isDigitCh)
          (.seq (.cls isDigitCh) (.seq (.cls (· = '/')) .eol))))))))))

/-! ### The Header Extractor (`get_headers_from_info_file`) -/

/-- The span matched by Pattern A at the start of a line, as captured by
group 1 of the `re.findall` call (the group wraps the whole alternative). -/
def patternA_span (s : List Char) : Option (List Char) :=
  (reMatchEnd patternA s).map (s.take ·)

/-- The span matched by Pattern B at the start of a line (group 2). -/
def patternB_span (s : List Char) : Option (List Char) :=
  (reMatchEnd patternB s).map (s.take ·)

/-- `re.findall("(A)|(B)", line)` for a pattern anchored with `^`: there is
at most one match, found at position 0; CPython tries alternative A (with
backtracking) before B, and an unmatched group yields the empty string. -/
def headerFindall (line : List Char) : Option (List Char × List Char) :=
  match patternA_span line with
  | some g1 => some (g1, [])
  | none =>
    match patternB_span line with
    | some g2 => some ([], g2)
    | none => none

/-- One header-block line of `get_headers_from_info_file`:
`tuple(filter(lambda s: not s == '', e[0]))[0]` — take the first nonempty
group of the first (only) findall match; `none` models the `IndexError`
raised when `findall` returned no match (or both groups were empty). -/
def extractHeaderLine (line : List Char) : Option (List Char) :=
  match headerFindall line with
  | none => none
  | some (g1, g2) => if g1 ≠ [] then some g1 else if g2 ≠ [] then some g2 else none

/-- Forcing a lazy Python pipeline with `list(...)`: any raised exception
(modelled by `none`) propagates. -/
def seqOptions : List (Option α) → Option (List α)
  | [] => some []
  | none :: _ => none
  | some a :: rest => (seqOptions rest).map (a :: ·)

/-- Lines 270–276 of `simple_utils.py`: after `info_file.readline()` discards
the first line, `footer_ix` is the index of the first remaining line matched
by `(\s+\n)|(\n)`, and the content is truncated to everything before it;
`none` models the `IndexError` of `[0]` on an empty filter result when no
line matches. `lines` is the file split as `readlines` splits it (each line
keeps its trailing newline; only the last line may lack one). -/
def headerBlock (lines : List (List Char)) : Option (List (List Char)) :=
  let content := lines.drop 1
  match content.findIdx? (reMatchB sepRE) with
  | none => none
  | some ix => some (content.take ix)

/-- `get_headers_from_info_file` of `simple_utils.py`: header block
truncation followed by the per-line two-pattern extraction; `none` models a
propagated `IndexError`. -/
def get_headers_from_info_file (lines : List (List Char)) : Option (List (List Char)) :=
  (headerBlock lines).bind fun block => seqOptions (block.map extractHeaderLine)

/-! ### Spec-side definitions (used only to state claims against the code) -/

/-- Modelled from the spec: a separator line in the claim's words, "a line
that is either entirely whitespace or empty". -/
def specSeparator (s : List Char) : Bool := s.all isSpaceChar

/-- The line with a single trailing newline removed (the line "content" a
reader of the spec refers to when speaking about how a line ends). -/
def stripNL (s : List Char) : List Char :=
  if s.getLast? = some '\n' then s.dropLast else s

/-- Modelled from the spec: the claim's reading of Pattern A — "line starts
with an uppercase Latin/Polish letter and ends with an uppercase/lowercase
Latin/Polish letter, one of the digit-free symbols `%`, `°`, `|`, or a
closing bracket". -/
def specPatternA (s : List Char) : Bool :=
  let t := stripNL s
  (match t.head? with
   | some c => classUpperA c
   | none => false) &&
  (match t.getLast? with
   | some c => classLetter c || c = '%' || c = '°' || c = '|' || c = ']'
   | none => false)

/-- Structural form of the code's separator test: a run of whitespace
characters reaching a newline, starting at the head of the line. -/
def sepStruct : List Char → Bool
  | [] => false
  | c :: r => c = '\n' || (isSpaceChar c && sepStruct r)

/-! ### Characterization of the separator pattern -/

/-- Position-level reading of the separator: some position holds a newline
and every earlier position holds whitespace. -/
def SepProp (s : List Char) : Prop :=
  ∃ j : Nat, s[j]? = some '\n' ∧ ∀ i < j, ∃ c, s[i]? = some c ∧ isSpaceChar c = true

/-! ### Characterization of Pattern A -/

/-- The character at position `i` exists and satisfies `p`. -/
def charAt (s : List Char) (i : Nat) (p : Char → Bool) : Bool :=
  match s[i]? with
  | some c => p c
  | none => false

/-- Position-level description of a Pattern A match ending at index `j`
(the bracket position): the line opens with an uppercase Latin/Polish
letter, position `j - 1` holds a character of the inner class, position `j`
holds the literal `]`, and the gap consumed by `.*` holds no newline. -/
def patACondB (s : List Char) (j : Nat) : Bool :=
  decide (2 ≤ j) && charAt s 0 classUpperA && charAt s (j - 1) classEndA &&
    decide (s[j]? = some ']') &&
    (List.range (j - 2)).all fun t => charAt s (t + 1) notNL

/-! ### HTML model: BeautifulSoup values used by the table parsers -/

/-- A parsed HTML node: an element with a tag name and children, or a text
node. -/
inductive Node where
  | tag (name : String) (children : List Node)
  | text (s : List Char)
deriving Repr

/-- All elements named `nm` in a forest, in document (preorder) order, the
roots included: the search underlying bs4 `find_all` / `find`. -/
def findAllL (nm : String) : List Node → List Node
  | [] => []
  | .text _ :: rest => findAllL nm rest
  | .tag n cs :: rest =>
    (if n = nm then [Node.tag n cs] else []) ++ findAllL nm cs ++ findAllL nm rest

/-- Does the forest contain an element named `nm`? -/
def hasTagL (nm : String) : List Node → Bool
  | [] => false
  | .text _ :: rest => hasTagL nm rest
  | .tag n cs :: rest => n = nm || hasTagL nm cs || hasTagL nm rest

/-- `element.find_all(nm)`: the element's descendants named `nm` in document
order (the element itself excluded). -/
def findAllIn (nm : String) : Node → List Node
  | .text _ => []
  | .tag _ cs => findAllL nm cs

/-- `get_table_from_imgw` of `simple_utils.py` after the external fetch and
parse (`requests.get` + `BeautifulSoup`, out-of-scope collaborators) have
produced the document forest: `soup.find('table')` returns the first
matching element in document order and `None` — not an exception — when the
document has no table. -/
def get_table_from_imgw (doc : List Node) : Option Node :=
  (findAllL "table" doc).head?

/-- bs4 `Tag.string`: a text node yields its text; a tag with exactly one
child yields that child's `.string`; a tag with zero or several children
yields `None`. -/
def nodeString : Node → Option (List Char)
  | .text s => some s
  | .tag _ [c] => nodeString c
  | .tag _ [] => none
  | .tag _ (_ :: _ :: _) => none

/-- `str.replace("/", "")`: every slash removed. -/
def removeSlash (s : List Char) : List Char := s.filter (· ≠ '/')

/-- `get_dates_from_table` of `simple_utils.py`: map each link to its
`.string`, filter by `re.match` against the date pattern, strip slashes;
`none` models the `TypeError` raised when some link has no string value
(`re.match` applied to `None`). -/
def get_dates_from_table (t : Node) : Option (List (List Char)) :=
  (seqOptions ((findAllIn "a" t).map nodeString)).map fun ss =>
    (ss.filter (reMatchB dateRE)).map removeSlash

/-- `get_info_files_from_table` of `simple_utils.py`: same pipeline with the
info-file pattern. -/
def get_info_files_from_table (t : Node) : Option (List (List Char)) :=
  (seqOptions ((findAllIn "a" t).map nodeString)).map fun ss =>
    (ss.filter (reMatchB infoRE)).map removeSlash

/-- Structural reading of the info-file pattern `(\w+).txt$`: one or more
word characters, then one arbitrary non-newline character, then `txt`,
ending the text or followed only by a final newline. -/
def InfoName (s : List Char) : Prop :=
  ∃ L : Nat, 1 ≤ L ∧ (∀ i < L, ∃ c, s[i]? = some c ∧ isWordChar c = true) ∧
    (∃ c, s[L]? = some c ∧ notNL c = true) ∧
    s[L + 1]? = some 't' ∧ s[L + 2]? = some 'x' ∧ s[L + 3]? = some 't' ∧
    (L + 4 = s.length ∨ (L + 5 = s.length ∧ s[L + 4]? = some '\n'))

/-- Structural reading of the date pattern `^\d{4}\/$|^\d{4}\_\d{4}\/$` under
CPython `$` semantics: four digits (or two four-digit groups joined by an
underscore), a slash, and then the end of the text or a single final
newline. -/
def DateName (s : List Char) : Prop :=
  ((∀ i < 4, ∃ c, s[i]? = some c ∧ isDigitCh c = true) ∧ s[4]? = some '/' ∧
    (5 = s.length ∨ (6 = s.length ∧ s[5]? = some '\n'))) ∨
  ((∀ i < 4, ∃ c, s[i]? = some c ∧ isDigitCh c = true) ∧ s[4]? = some '_' ∧
    (∀ i, 5 ≤ i → i < 9 → ∃ c, s[i]? = some c ∧ isDigitCh c = true) ∧
    s[9]? = some '/' ∧ (10 = s.length ∨ (11 = s.length ∧ s[10]? = some '\n')))

/-- Modelled from the spec: "name ends in `.txt`". -/
def endsTxt (s : List Char) : Bool := ['.', 't', 'x', 't'].isSuffixOf s

/-- Modelled from the spec: a directory name matching `^\d{4}$` or
`^\d{4}_\d{4}$` (a bare four-digit year or a year range). -/
def specDateName (N : List Char) : Bool :=
  (N.length == 4 && N.all isDigitCh) ||
  (N.length == 9 && (N.take 4).all isDigitCh && N[4]? == some '_' &&
    (N.drop 5).all isDigitCh)

/-- Modelled from the spec: a link text whose full text matches `^\d{4}/$`
or `^\d{4}_\d{4}/$` — a date-directory name followed by a trailing slash and
nothing else. -/
def specDateLink (s : List Char) : Bool :=
  (s.getLast? == some '/') && specDateName s.dropLast

/-! ### The Merger: `merge_imgw_csv_files` over a pandas-style dataframe -/

/-- A pandas dataframe: column labels and rows of cells; a missing cell
(column absent from a source frame during outer alignment) is `none`. -/
structure DF (α : Type) where
  cols : List String
  rows : List (List (Option α))

/-- `pd.read_csv(..., header=None)` on an already-tokenised rectangular
file: default integer column labels `0..w-1` (rendered as label strings)
and the file's cells. Tokenising the comma-separated bytes is an
out-of-scope collaborator; `rows` is its output. -/
def read_csv {α : Type} (rows : List (List α)) : DF α :=
  { cols := (List.range (rows.headD []).length).map toString,
    rows := rows.map fun r => r.map some }

/-- Column labels of `pd.concat`: union in order of first appearance. -/
def unionCols (ls : List (List String)) : List String :=
  ls.foldl (fun acc cs => acc ++ cs.filter fun c => !(acc.contains c)) []

/-- `pd.concat` with the default outer join on columns: raises
(`.error`) on an empty list, otherwise stacks all rows, each row realigned
to the unioned column list (missing columns filled with `none`). -/
def pd_concat {α : Type} (dfs : List (DF α)) : Except String (DF α) :=
  match dfs with
  | [] => .error "No objects to concatenate"
  | _ :: _ =>
    let cols := unionCols (dfs.map (·.cols))
    .ok { cols := cols,
          rows := dfs.flatMap fun F => F.rows.map fun r =>
            cols.map fun c =>
              match F.cols.indexOf? c with
              | some k => r.getD k none
              | none => none }

/-- `df.columns = headers`: pandas raises a length-mismatch error when the
label list does not match the column count. -/
def set_columns {α : Type} (df : DF α) (hs : List String) : Except String (DF α) :=
  if hs.length = df.cols.length then .ok { df with cols := hs }
  else .error "Length mismatch"

/-- The selection test of `merge_imgw_csv_files`: the two nested `if`s —
name ends in `.csv`, and the optional name pattern (given as an abstract
predicate standing for `re.match(f_name_pattern, fname)`) accepts it. -/
def csvSelected (f_name_pattern : Option (List Char → Bool)) (fname : List Char) : Bool :=
  (['.', 'c', 's', 'v'].isSuffixOf fname) &&
    (match f_name_pattern with
     | none => true
     | some p => p fname)

/-- `merge_imgw_csv_files` of `simple_utils.py`: read every selected file of
the directory listing, concatenate, then optionally overwrite the column
labels; any raised error propagates. -/
def merge_imgw_csv_files {α : Type} (listing : List (List Char × List (List α)))
    (headers : Option (List String)) (f_name_pattern : Option (List Char → Bool)) :
    Except String (DF α) :=
  let files := listing.filter fun f => csvSelected f_name_pattern f.1
  (pd_concat (files.map fun f => read_csv f.2)).bind fun df =>
    match headers with
    | none => .ok df
    | some hs => set_columns df hs

/-! ### The Fetcher: `download_url` -/

/-- Outcome of the write phase of a download: every chunk written, the
`open` call failing (caught by the bare `except`), or an `IOError` after `k`
chunks were written (also caught). -/
inductive WriteOutcome where
  | ok
  | failOpen
  | failAt (k : Nat)

/-- `download_url` of `simple_utils.py`, over a filesystem modelled as a map
from path to file bytes. A status of 200 opens (truncates/creates) the
destination and streams the chunks, a write failure is swallowed with a
message (leaving a partial file), and any other status takes no action and
only reports; the function always returns normally — nothing raises. -/
def download_url (status : Nat) (chunks : List (List Nat)) (save_path : List Char)
    (outcome : WriteOutcome) (fs : List Char → Option (List Nat)) :
    (List Char → Option (List Nat)) × List String :=
  if status = 200 then
    match outcome with
    | .ok => (fun p => if p = save_path then some chunks.flatten else fs p, [])
    | .failOpen => (fs, ["Unable to download the file."])
    | .failAt k =>
      (fun p => if p = save_path then some ((chunks.take k).flatten) else fs p,
        ["Unable to download the file."])
  else
    (fs, ["File does not exist. Is URL proper? Unable to download the file."])

/-! ### The Directory Manager: `clean_directories` over a filesystem tree -/

/-- The entry at a filesystem path: a regular file or a directory with a
named entry list (in `os.listdir` order). -/
inductive Entry where
  | file
  | dir (entries : List (String × Entry))
deriving Repr

/-- First entry with the given name (filesystem names are unique per
directory; well-formedness is assumed where it matters). -/
def lookupE (n : String) : List (String × Entry) → Option Entry
  | [] => none
  | (m, e) :: rest => if m = n then some e else lookupE n rest

/-- Replace the payload of the first entry named `n`. -/
def replaceE (n : String) (e' : Entry) : List (String × Entry) → List (String × Entry)
  | [] => []
  | (m, e) :: rest => if m = n then (m, e') :: rest else (m, e) :: replaceE n e' rest

/-- Remove the first entry named `n`. -/
def eraseE (n : String) : List (String × Entry) → List (String × Entry)
  | [] => []
  | (m, e) :: rest => if m = n then rest else (m, e) :: eraseE n rest

/-- The entry at a relative path. -/
def getAt : List String → Entry → Option Entry
  | [], e => some e
  | n :: p, .dir es => (lookupE n es).bind (getAt p)
  | _ :: _, .file => none

/-- Replace the subtree at a relative path (which must exist). -/
def setAt : List String → Entry → Entry → Option Entry
  | [], e', _ => some e'
  | n :: p, e', .dir es =>
    (lookupE n es).bind fun ch => (setAt p e' ch).map fun ch' => Entry.dir (replaceE n ch' es)
  | _ :: _, _, .file => none

/-- `os.remove(path)`: removes the regular file at `path`; `none` models the
`OSError` raised when the path is missing or not a regular file. -/
def applyRemove : List String → Entry → Option Entry
  | [], _ => none
  | [n], .dir es =>
    match lookupE n es with
    | some .file => some (.dir (eraseE n es))
    | _ => none
  | n :: p, .dir es =>
    match lookupE n es with
    | some ch => (applyRemove p ch).map fun ch' => Entry.dir (replaceE n ch' es)
    | none => none
  | _ :: _, .file => none

/-- `os.rmdir(path)`: removes the directory at `path`, which must be empty;
`none` models the `OSError` otherwise. -/
def applyRmdir : List String → Entry → Option Entry
  | [], _ => none
  | [n], .dir es =>
    match lookupE n es with
    | some (.dir []) => some (.dir (eraseE n es))
    | _ => none
  | n :: p, .dir es =>
    match lookupE n es with
    | some ch => (applyRmdir p ch).map fun ch' => Entry.dir (replaceE n ch' es)
    | none => none
  | _ :: _, .file => none

/-- One deletion performed by the loop body of `clean_directories`. -/
inductive FsOp where
  | rm (p : List String)
  | rd (p : List String)

def applyOp : FsOp → Entry → Option Entry
  | .rm p => applyRemove p
  | .rd p => applyRmdir p

/-- Run deletions sequentially; a raised `OSError` (`none`) propagates. -/
def runOps : List FsOp → Entry → Option Entry
  | [], e => some e
  | op :: rest, e => (applyOp op e).bind (runOps rest)

/-- Names of the regular files of an entry list, in listing order. -/
def entryFileNames (es : List (String × Entry)) : List String :=
  es.filterMap fun pr =>
    match pr.2 with
    | .file => some pr.1
    | .dir _ => none

/-- Names of the subdirectories of an entry list, in listing order. -/
def entryDirNames (es : List (String × Entry)) : List String :=
  es.filterMap fun pr =>
    match pr.2 with
    | .dir _ => some pr.1
    | .file => none

mutual

/-- `os.walk(·, topdown=False)` rooted at relative path `pre`: every
descendant directory's triple before the directory's own, siblings in
listing order; walking a file yields nothing. -/
def walkBU (pre : List String) : Entry → List (List String × List String × List String)
  | .file => []
  | .dir es => walkChildren pre es ++ [(pre, entryDirNames es, entryFileNames es)]

def walkChildren (pre : List String) :
    List (String × Entry) → List (List String × List String × List String)
  | [] => []
  | (n, e) :: rest => walkBU (pre ++ [n]) e ++ walkChildren pre rest

end

/-- The loop body of `clean_directories` for one `os.walk` triple: remove
every file of the directory, then `rmdir` every subdirectory. -/
def tripleOps : List String × List String × List String → List FsOp
  | (root, ds, fs) => (fs.map fun f => FsOp.rm (root ++ [f])) ++
      (ds.map fun d => FsOp.rd (root ++ [d]))

/-- The full deletion sequence of `clean_directories` on an existing tree. -/
def cleanOps (e : Entry) : List FsOp := (walkBU [] e).flatMap tripleOps

/-- `clean_directories` of `simple_utils.py`, applied to the entry found at
`main_directory` (`none` when the path does not exist; the rest of the
filesystem is untouched by the code and not modelled). The outer `Option` is
a propagated `OSError` from a deletion; the message text mirrors the
source's prints. -/
def clean_directories (path : String) : Option Entry → Option (Option Entry × List String)
  | none =>
    some (none, ["Path " ++ path ++ " does not exist. This folder has to be created manually."])
  | some e =>
    (runOps (cleanOps e) e).map fun e' =>
      (some e', ["path exists - removing contents of " ++ path])

/-- Unique names in a directory listing. -/
def namesNodupB : List String → Bool
  | [] => true
  | n :: rest => !(rest.contains n) && namesNodupB rest

mutual

/-- Well-formed filesystem tree: names unique in every directory. -/
def wfE : Entry → Bool
  | .file => true
  | .dir es => namesNodupB (es.map Prod.fst) && wfL es

def wfL : List (String × Entry) → Bool
  | [] => true
  | pr :: rest => wfE pr.2 && wfL rest

end

/-- The shape of an entry after its subtree was cleaned: directories are
empty, files untouched (they are removed by the parent's triple later). -/
def emptyE : Entry → Entry
  | .file => .file
  | .dir _ => .dir []

def emptyPair (pr : String × Entry) : String × Entry := (pr.1, emptyE pr.2)

def opPath : FsOp → List String
  | .rm q => q
  | .rd q => q

def prefixOp (p : List String) : FsOp → FsOp
  | .rm q => .rm (p ++ q)
  | .rd q => .rd (p ++ q)

/-! ### Generic lemmas about the matcher -/

theorem tryBack_isSome_iff (k : Nat → Option Nat) (i : Nat) (m : Nat) :
    (tryBack k i m).isSome ↔ ∃ d ≤ m, (k (i + d)).isSome := by
  induction m with
  | zero =>
    simp [tryBack]
  | succ m ih =>
    rw [tryBack]
    rcases hk : k (i + (m + 1)) with _ | v
    · rw [Option.none_orElse']
      constructor
      · intro h
        rcases ih.mp h with ⟨d, hd, h2⟩
        exact ⟨d, Nat.le_succ_of_le hd, h2⟩
      · rintro ⟨d, hd, h2⟩
        rcases Nat.lt_or_ge d (m + 1) with hlt | hge
        · exact ih.mpr ⟨d, Nat.lt_succ_iff.mp hlt, h2⟩
        · have : d = m + 1 := Nat.le_antisymm hd hge
          subst this
          rw [hk] at h2
          simp at h2
    · rw [Option.some_orElse']
      constructor
      · intro _
        exact ⟨m + 1, le_rfl, by simp [hk]⟩
      · intro _
        simp

theorem tryBack_eq_some (k : Nat → Option Nat) (i : Nat) (m : Nat) (r : Nat)
    (h : tryBack k i m = some r) :
    ∃ d ≤ m, k (i + d) = some r ∧ ∀ d', d < d' → d' ≤ m → k (i + d') = none := by
  induction m with
  | zero =>
    refine ⟨0, le_rfl, by simpa [tryBack] using h, ?_⟩
    intro d' h1 h2
    omega
  | succ m ih =>
    rw [tryBack] at h
    rcases hk : k (i + (m + 1)) with _ | v
    · rw [hk, Option.none_orElse'] at h
      rcases ih h with ⟨d, hd, hkd, hmax⟩
      refine ⟨d, Nat.le_succ_of_le hd, hkd, ?_⟩
      intro d' h1 h2
      rcases Nat.lt_or_ge d' (m + 1) with hlt | hge
      · exact hmax d' h1 (Nat.lt_succ_iff.mp hlt)
      · have : d' = m + 1 := Nat.le_antisymm h2 hge
        subst this
        exact hk
    · rw [hk, Option.some_orElse'] at h
      refine ⟨m + 1, le_rfl, by rw [hk, h], ?_⟩
      intro d' h1 h2
      omega

theorem tryBack_eq_some_of (k : Nat → Option Nat) (i : Nat) (m d : Nat) (r : Nat)
    (hd : d ≤ m) (hk : k (i + d) = some r)
    (hmax : ∀ d', d < d' → d' ≤ m → k (i + d') = none) :
    tryBack k i m = some r := by
  induction m with
  | zero =>
    have : d = 0 := Nat.le_zero.mp hd
    subst this
    simpa [tryBack] using hk
  | succ m ih =>
    rw [tryBack]
    rcases Nat.lt_or_ge d (m + 1) with hlt | hge
    · have htop : k (i + (m + 1)) = none := hmax (m + 1) hlt le_rfl
      rw [htop, Option.none_orElse']
      exact ih (Nat.lt_succ_iff.mp hlt) fun d' h1 h2 => hmax d' h1 (Nat.le_succ_of_le h2)
    · have : d = m + 1 := Nat.le_antisymm hd hge
      subst this
      rw [hk, Option.some_orElse']

theorem runP_le_length (p : Char → Bool) (l : List Char) : runP p l ≤ l.length := by
  induction l with
  | nil => simp [runP]
  | cons c r ih =>
    by_cases h : p c
    · simpa [runP, h] using Nat.succ_le_succ ih
    · simp [runP, h]

theorem le_runP_iff (p : Char → Bool) (l : List Char) (d : Nat) :
    d ≤ runP p l ↔ ∀ t < d, ∃ c, l[t]? = some c ∧ p c = true := by
  induction l generalizing d with
  | nil =>
    constructor
    · intro h t ht
      simp [runP] at h
      omega
    · intro h
      rcases Nat.eq_zero_or_pos d with h0 | h0
      · simp [h0, runP]
      · rcases h 0 h0 with ⟨c, hc, _⟩
        simp at hc
  | cons a r ih =>
    constructor
    · intro h t ht
      by_cases hp : p a
      · rw [runP, if_pos hp] at h
        cases t with
        | zero => exact ⟨a, by simp, hp⟩
        | succ t' =>
          have : t' < d - 1 := by omega
          rcases (ih (d - 1)).mp (by omega) t' this with ⟨c, hc, hpc⟩
          exact ⟨c, by simpa using hc, hpc⟩
      · rw [runP, if_neg hp] at h
        omega
    · intro h
      rcases Nat.eq_zero_or_pos d with h0 | h0
      · simp [h0]
      · rcases h 0 h0 with ⟨c, hc, hpc⟩
        have hca : a = c := by simpa using hc
        subst hca
        rw [runP, if_pos hpc]
        have : d - 1 ≤ runP p r := by
          refine (ih (d - 1)).mpr ?_
          intro t ht
          rcases h (t + 1) (by omega) with ⟨c', hc', hpc'⟩
          exact ⟨c', by simpa using hc', hpc'⟩
        omega

theorem matchFrom_cls_eq_some (s : List Char) (p : Char → Bool) (i : Nat)
    (k : Nat → Option Nat) (r : Nat) :
    matchFrom s (.cls p) i k = some r ↔
      ∃ c, s[i]? = some c ∧ p c = true ∧ k (i + 1) = some r := by
  rw [matchFrom]
  rcases h : s[i]? with _ | c
  · simp
  · by_cases hp : p c
    · simp [hp]
    · simp [hp]

theorem matchFrom_cls_isSome (s : List Char) (p : Char → Bool) (i : Nat)
    (k : Nat → Option Nat) :
    (matchFrom s (.cls p) i k).isSome ↔
      ∃ c, s[i]? = some c ∧ p c = true ∧ (k (i + 1)).isSome := by
  rw [matchFrom]
  rcases h : s[i]? with _ | c
  · simp
  · by_cases hp : p c
    · simp [hp]
    · simp [hp]

theorem matchFrom_alt_isSome (s : List Char) (a b : RE) (i : Nat)
    (k : Nat → Option Nat) :
    (matchFrom s (.alt a b) i k).isSome ↔
      (matchFrom s a i k).isSome ∨ (matchFrom s b i k).isSome := by
  rw [matchFrom]
  rcases ha : matchFrom s a i k with _ | v
  · rw [Option.none_orElse']
    simp
  · rw [Option.some_orElse']
    simp

theorem matchFrom_star_isSome (s : List Char) (p : Char → Bool) (i : Nat)
    (k : Nat → Option Nat) :
    (matchFrom s (.star p) i k).isSome ↔
      ∃ d ≤ runP p (s.drop i), (k (i + d)).isSome := by
  rw [matchFrom]
  exact tryBack_isSome_iff k i (runP p (s.drop i))

theorem matchFrom_star_eq_some (s : List Char) (p : Char → Bool) (i : Nat)
    (k : Nat → Option Nat) (r : Nat) (h : matchFrom s (.star p) i k = some r) :
    ∃ d ≤ runP p (s.drop i), k (i + d) = some r ∧
      ∀ d', d < d' → d' ≤ runP p (s.drop i) → k (i + d') = none := by
  rw [matchFrom] at h
  exact tryBack_eq_some k i _ r h

theorem matchFrom_eol_eq_some (s : List Char) (i : Nat) (k : Nat → Option Nat)
    (r : Nat) :
    matchFrom s .eol i k = some r ↔
      (i = s.length ∨ (i + 1 = s.length ∧ s[i]? = some '\n')) ∧ k i = some r := by
  rw [matchFrom]
  by_cases h : i = s.length ∨ (i + 1 = s.length ∧ s[i]? = some '\n')
  · simp [h]
  · simp [h]

theorem matchFrom_eol_isSome (s : List Char) (i : Nat) (k : Nat → Option Nat) :
    (matchFrom s .eol i k).isSome ↔
      (i = s.length ∨ (i + 1 = s.length ∧ s[i]? = some '\n')) ∧ (k i).isSome := by
  rw [matchFrom]
  by_cases h : i = s.length ∨ (i + 1 = s.length ∧ s[i]? = some '\n')
  · simp [h]
  · simp [h]

theorem matchFrom_seq (s : List Char) (a b : RE) (i : Nat) (k : Nat → Option Nat) :
    matchFrom s (.seq a b) i k = matchFrom s a i fun j => matchFrom s b j k := rfl

theorem reMatchB_sepRE_iff (s : List Char) : reMatchB sepRE s = true ↔ SepProp s := by
  constructor
  · intro h
    have h' : (matchFrom s sepRE 0 some).isSome := h
    rw [sepRE, matchFrom_alt_isSome] at h'
    show ∃ j, s[j]? = some '\n' ∧ ∀ i < j, ∃ c, s[i]? = some c ∧ isSpaceChar c = true
    rcases h' with h' | h'
    · rw [matchFrom_seq, matchFrom_cls_isSome] at h'
      rcases h' with ⟨c0, hc0, hws0, h'⟩
      rw [matchFrom_seq, matchFrom_star_isSome] at h'
      rcases h' with ⟨d, hd, h'⟩
      rw [matchFrom_cls_isSome] at h'
      rcases h' with ⟨c1, hc1, hnl, _⟩
      have hc1' : c1 = '\n' := by simpa using hnl
      subst hc1'
      refine ⟨0 + 1 + d, hc1, ?_⟩
      intro i hi
      cases i with
      | zero => exact ⟨c0, by simpa using hc0, hws0⟩
      | succ t =>
        have ht : t < d := by omega
        rcases (le_runP_iff isSpaceChar (s.drop 1) d).mp hd t ht with ⟨c, hc, hwc⟩
        rw [List.getElem?_drop] at hc
        exact ⟨c, by simpa [Nat.add_comm] using hc, hwc⟩
    · rw [matchFrom_cls_isSome] at h'
      rcases h' with ⟨c, hc, hnl, _⟩
      have hc' : c = '\n' := by simpa using hnl
      subst hc'
      refine ⟨0, hc, ?_⟩
      intro i hi
      exact absurd hi (Nat.not_lt_zero i)
  · intro hp
    rcases hp with ⟨j, hj, hpre⟩
    show (matchFrom s sepRE 0 some).isSome = true
    rw [sepRE, matchFrom_alt_isSome]
    cases j with
    | zero =>
      right
      rw [matchFrom_cls_isSome]
      exact ⟨'\n', hj, by simp, by simp [matchFrom]⟩
    | succ j' =>
      left
      rw [matchFrom_seq, matchFrom_cls_isSome]
      rcases hpre 0 (by omega) with ⟨c0, hc0, hws0⟩
      refine ⟨c0, by simpa using hc0, hws0, ?_⟩
      rw [matchFrom_seq, matchFrom_star_isSome]
      refine ⟨j', ?_, ?_⟩
      · rw [le_runP_iff]
        intro t ht
        rcases hpre (t + 1) (by omega) with ⟨c, hc, hwc⟩
        refine ⟨c, ?_, hwc⟩
        rw [List.getElem?_drop]
        simpa [Nat.add_comm] using hc
      · rw [matchFrom_cls_isSome]
        refine ⟨'\n', ?_, by simp, by simp [matchFrom]⟩
        have : 0 + 1 + j' = j' + 1 := by omega
        rw [this]
        exact hj

theorem sepStruct_iff (s : List Char) : sepStruct s = true ↔ SepProp s := by
  induction s with
  | nil =>
    constructor
    · intro h
      simp [sepStruct] at h
    · rintro ⟨j, hj, _⟩
      simp at hj
  | cons c r ih =>
    constructor
    · intro h
      rw [sepStruct] at h
      show ∃ j, (c :: r)[j]? = some '\n' ∧
        ∀ i < j, ∃ c', (c :: r)[i]? = some c' ∧ isSpaceChar c' = true
      rcases Bool.or_eq_true_iff.mp h with h | h
      · have : c = '\n' := by simpa using h
        subst this
        refine ⟨0, by simp, ?_⟩
        intro i hi
        exact absurd hi (Nat.not_lt_zero i)
      · rcases Bool.and_eq_true_iff.mp h with ⟨hws, hrec⟩
        rcases ih.mp hrec with ⟨j, hj, hpre⟩
        refine ⟨j + 1, by simpa using hj, ?_⟩
        intro i hi
        cases i with
        | zero => exact ⟨c, by simp, hws⟩
        | succ t =>
          rcases hpre t (by omega) with ⟨c', hc', hwc'⟩
          exact ⟨c', by simpa using hc', hwc'⟩
    · rintro ⟨j, hj, hpre⟩
      rw [sepStruct]
      cases j with
      | zero =>
        have : c = '\n' := by simpa using hj
        simp [this]
      | succ j' =>
        rcases hpre 0 (by omega) with ⟨c0, hc0, hws0⟩
        have hc0c : c = c0 := by simpa using hc0
        have hrec : sepStruct r = true := by
          refine ih.mpr ⟨j', by simpa using hj, ?_⟩
          intro i hi
          rcases hpre (i + 1) (by omega) with ⟨c', hc', hwc'⟩
          exact ⟨c', by simpa using hc', hwc'⟩
        subst hc0c
        simp [hws0, hrec]

theorem reMatchB_sepRE_eq_sepStruct : ∀ s, reMatchB sepRE s = sepStruct s := by
  intro s
  rcases hb : sepStruct s with _ | _
  · rcases hc : reMatchB sepRE s with _ | _
    · rfl
    · exact absurd ((sepStruct_iff s).mpr ((reMatchB_sepRE_iff s).mp hc)) (by simp [hb])
  · exact (reMatchB_sepRE_iff s).mpr ((sepStruct_iff s).mp hb)

theorem charAt_iff (s : List Char) (i : Nat) (p : Char → Bool) :
    charAt s i p = true ↔ ∃ c, s[i]? = some c ∧ p c = true := by
  rw [charAt]
  rcases h : s[i]? with _ | c
  · simp
  · simp

theorem patACondB_iff (s : List Char) (j : Nat) :
    patACondB s j = true ↔
      2 ≤ j ∧ (∃ c, s[0]? = some c ∧ classUpperA c = true) ∧
        (∃ c, s[j - 1]? = some c ∧ classEndA c = true) ∧ s[j]? = some ']' ∧
        ∀ i, 1 ≤ i → i + 2 ≤ j → ∃ c, s[i]? = some c ∧ notNL c = true := by
  rw [patACondB]
  simp only [Bool.and_eq_true, decide_eq_true_eq, charAt_iff, List.all_eq_true,
    List.mem_range]
  constructor
  · rintro ⟨⟨⟨⟨h2, hup⟩, hend⟩, hbr⟩, hgap⟩
    refine ⟨h2, hup, hend, hbr, ?_⟩
    intro i h1 hij
    have : i - 1 < j - 2 := by omega
    have := hgap (i - 1) this
    have hi : i - 1 + 1 = i := by omega
    rwa [hi] at this
  · rintro ⟨h2, hup, hend, hbr, hgap⟩
    refine ⟨⟨⟨⟨h2, hup⟩, hend⟩, hbr⟩, ?_⟩
    intro t ht
    exact hgap (t + 1) (by omega) (by omega)

theorem patACondB_lt_length (s : List Char) (j : Nat) (h : patACondB s j = true) :
    j < s.length := by
  rcases (patACondB_iff s j).mp h with ⟨_, _, _, hbr, _⟩
  rcases List.getElem?_eq_some.mp hbr with ⟨hlt, _⟩
  exact hlt

/-- The last two atoms of Pattern A: `[A-ZĄĘĆŃŻŹŚĆa-ząęćńżźść%°|]` then the
literal `]`. -/
theorem tailA_eq_some (s : List Char) (j r : Nat) :
    matchFrom s (.seq (.cls classEndA) (.cls (· = ']'))) j some = some r ↔
      (∃ c, s[j]? = some c ∧ classEndA c = true) ∧ s[j + 1]? = some ']' ∧
        r = j + 2 := by
  rw [matchFrom_seq, matchFrom_cls_eq_some]
  constructor
  · rintro ⟨c, hc, hca, h⟩
    rw [matchFrom_cls_eq_some] at h
    rcases h with ⟨c', hc', hcb, hr⟩
    have hcb' : c' = ']' := by simpa using hcb
    subst hcb'
    have hr' : j + 1 + 1 = r := Option.some.inj hr
    exact ⟨⟨c, hc, hca⟩, hc', by omega⟩
  · rintro ⟨⟨c, hc, hca⟩, hbr, hr⟩
    subst hr
    refine ⟨c, hc, hca, ?_⟩
    rw [matchFrom_cls_eq_some]
    exact ⟨']', hbr, by simp, rfl⟩

theorem matchFrom_star_def (s : List Char) (p : Char → Bool) (i : Nat)
    (k : Nat → Option Nat) :
    matchFrom s (.star p) i k = tryBack k i (runP p (s.drop i)) := by
  rw [matchFrom]

theorem reMatchEnd_patternA_eq_some_iff (s : List Char) (e : Nat) :
    reMatchEnd patternA s = some e ↔
      ∃ j, patACondB s j = true ∧ e = j + 1 ∧
        ∀ j', patACondB s j' = true → j' ≤ j := by
  constructor
  · intro h
    rw [reMatchEnd, patternA, matchFrom_seq, matchFrom_cls_eq_some] at h
    rcases h with ⟨c0, hc0, hup, h⟩
    rw [matchFrom_seq, matchFrom_star_def] at h
    rcases tryBack_eq_some _ _ _ _ h with ⟨d, hd, hK, hmax⟩
    have hK' : matchFrom s (.seq (.cls classEndA) (.cls (· = ']')))
        (0 + 1 + d) some = some e := hK
    rw [tailA_eq_some] at hK'
    rcases hK' with ⟨hend, hbr, he⟩
    refine ⟨d + 2, ?_, by omega, ?_⟩
    · rw [patACondB_iff]
      refine ⟨by omega, ⟨c0, hc0, hup⟩, ?_, ?_, ?_⟩
      · have h1 : d + 2 - 1 = 0 + 1 + d := by omega
        rw [h1]
        exact hend
      · have h1 : d + 2 = 0 + 1 + d + 1 := by omega
        rw [h1]
        exact hbr
      · intro i h1 hij
        have ht : i - 1 < d := by omega
        rcases (le_runP_iff notNL (s.drop (0 + 1)) d).mp hd (i - 1) ht with ⟨c, hc, hnc⟩
        rw [List.getElem?_drop] at hc
        have h2 : 0 + 1 + (i - 1) = i := by omega
        rw [h2] at hc
        exact ⟨c, hc, hnc⟩
    · intro j' hj'
      rcases (patACondB_iff s j').mp hj' with ⟨h2', _, hend', hbr', hgap'⟩
      have hd' : j' - 2 ≤ runP notNL (s.drop (0 + 1)) := by
        rw [le_runP_iff]
        intro t ht
        rcases hgap' (t + 1) (by omega) (by omega) with ⟨c, hc, hnc⟩
        refine ⟨c, ?_, hnc⟩
        rw [List.getElem?_drop]
        have h1 : 0 + 1 + t = t + 1 := by omega
        rw [h1]
        exact hc
      by_contra hgt
      have hdd : d < j' - 2 := by omega
      have hnone : matchFrom s (.seq (.cls classEndA) (.cls (· = ']')))
          (0 + 1 + (j' - 2)) some = none := hmax (j' - 2) hdd hd'
      have hsome : matchFrom s (.seq (.cls classEndA) (.cls (· = ']')))
          (0 + 1 + (j' - 2)) some = some (j' + 1) := by
        rw [tailA_eq_some]
        have e1 : 0 + 1 + (j' - 2) = j' - 1 := by omega
        rw [e1]
        refine ⟨hend', ?_, by omega⟩
        have e2 : j' - 1 + 1 = j' := by omega
        rw [e2]
        exact hbr'
      rw [hnone] at hsome
      exact Option.noConfusion hsome
  · rintro ⟨j, hj, he, hmax⟩
    rcases (patACondB_iff s j).mp hj with ⟨h2, ⟨c0, hc0, hup⟩, hend, hbr, hgap⟩
    rw [reMatchEnd, patternA, matchFrom_seq, matchFrom_cls_eq_some]
    refine ⟨c0, hc0, hup, ?_⟩
    rw [matchFrom_seq, matchFrom_star_def]
    have hdle : j - 2 ≤ runP notNL (s.drop (0 + 1)) := by
      rw [le_runP_iff]
      intro t ht
      rcases hgap (t + 1) (by omega) (by omega) with ⟨c, hc, hnc⟩
      refine ⟨c, ?_, hnc⟩
      rw [List.getElem?_drop]
      have h1 : 0 + 1 + t = t + 1 := by omega
      rw [h1]
      exact hc
    refine tryBack_eq_some_of _ (0 + 1) _ (j - 2) e hdle ?_ ?_
    · show matchFrom s (.seq (.cls classEndA) (.cls (· = ']'))) (0 + 1 + (j - 2)) some
        = some e
      rw [tailA_eq_some]
      have e1 : 0 + 1 + (j - 2) = j - 1 := by omega
      rw [e1]
      refine ⟨hend, ?_, by omega⟩
      have e2 : j - 1 + 1 = j := by omega
      rw [e2]
      exact hbr
    · intro d' hlt hle
      show matchFrom s (.seq (.cls classEndA) (.cls (· = ']'))) (0 + 1 + d') some = none
      rcases hne : matchFrom s (.seq (.cls classEndA) (.cls (· = ']'))) (0 + 1 + d') some
        with _ | r
      · rfl
      · exfalso
        rw [tailA_eq_some] at hne
        rcases hne with ⟨hend', hbr', _⟩
        have hcond : patACondB s (d' + 2) = true := by
          rw [patACondB_iff]
          refine ⟨by omega, ⟨c0, hc0, hup⟩, ?_, ?_, ?_⟩
          · have h1 : d' + 2 - 1 = 0 + 1 + d' := by omega
            rw [h1]
            exact hend'
          · have h1 : d' + 2 = 0 + 1 + d' + 1 := by omega
            rw [h1]
            exact hbr'
          · intro i hi1 hij
            have ht : i - 1 < d' := by omega
            rcases (le_runP_iff notNL (s.drop (0 + 1)) d').mp hle (i - 1) ht with ⟨c, hc, hnc⟩
            rw [List.getElem?_drop] at hc
            have h2 : 0 + 1 + (i - 1) = i := by omega
            rw [h2] at hc
            exact ⟨c, hc, hnc⟩
        have := hmax (d' + 2) hcond
        omega

theorem patternA_span_isSome_iff (s : List Char) :
    (patternA_span s).isSome ↔ ∃ j, patACondB s j = true := by
  constructor
  · intro h
    rcases Option.isSome_iff_exists.mp h with ⟨t, ht⟩
    rw [patternA_span] at ht
    rcases Option.map_eq_some'.mp ht with ⟨e, hre, _⟩
    rcases (reMatchEnd_patternA_eq_some_iff s e).mp hre with ⟨j, hj, _, _⟩
    exact ⟨j, hj⟩
  · rintro ⟨j, hj⟩
    have hble : j ≤ s.length := le_of_lt (patACondB_lt_length s j hj)
    have hP0 : patACondB s (Nat.findGreatest (fun j' => patACondB s j' = true) s.length)
        = true := @Nat.findGreatest_spec j (fun j' => patACondB s j' = true) _ s.length hble hj
    have hmax : ∀ j', patACondB s j' = true →
        j' ≤ Nat.findGreatest (fun j' => patACondB s j' = true) s.length := by
      intro j' hj'
      exact Nat.le_findGreatest (le_of_lt (patACondB_lt_length s j' hj')) hj'
    have hsome : reMatchEnd patternA s =
        some (Nat.findGreatest (fun j' => patACondB s j' = true) s.length + 1) :=
      (reMatchEnd_patternA_eq_some_iff s _).mpr ⟨_, hP0, rfl, hmax⟩
    rw [patternA_span, hsome]
    rfl

/-- C1 (amended): for every line, Pattern A of the Header Extractor matches
exactly when the line starts with an uppercase Latin/Polish letter and, at
some position with no newline before it, carries a closing bracket `]`
immediately preceded by an upper/lowercase Latin/Polish letter or one of
`%`, `°`, `|` (the doubled `]]` in the source pattern makes the bracket
mandatory rather than an alternative ending); when it matches, the captured
header text is the whole matched span — the prefix of the line up to the
last such bracket. -/
theorem claim_C1 (s : List Char) :
    ((patternA_span s).isSome ↔ ∃ j, patACondB s j = true) ∧
    ∀ t, patternA_span s = some t →
      ∃ j, patACondB s j = true ∧ t = s.take (j + 1) ∧
        ∀ j', patACondB s j' = true → j' ≤ j := by
  refine ⟨patternA_span_isSome_iff s, ?_⟩
  intro t ht
  rw [patternA_span] at ht
  rcases Option.map_eq_some'.mp ht with ⟨e, hre, hte⟩
  rcases (reMatchEnd_patternA_eq_some_iff s e).mp hre with ⟨j, hj, hej, hmax⟩
  subst hej
  exact ⟨j, hj, hte.symm, hmax⟩

/-- C1 witness: `claim_C1` applied to the line `"A%]"`, whose Pattern A
match ends at the bracket in position 2. -/
theorem claim_C1_witness : (patternA_span ("A%]".toList)).isSome :=
  (claim_C1 ("A%]".toList)).1.mpr ⟨2, by decide⟩

/-- C1 counterexample: the line `"ABC\n"` starts with an uppercase letter
and (ignoring the trailing newline) ends with the uppercase letter `C`, so
the claim says Pattern A matches it — but the code's Pattern A requires a
literal `]` and does not match. -/
theorem claim_C1_counterexample :
    specPatternA ("ABC\n".toList) = true ∧ patternA_span ("ABC\n".toList) = none := by
  constructor
  · decide
  · decide

/-- C2 (amended): after discarding the first line, the Header Extractor
truncates the remaining lines to everything strictly before the first line
that consists of a (possibly empty) run of whitespace followed by a newline
character, and propagates an index-out-of-range fault (`none`) when no such
line exists. A final line that is entirely whitespace but lacks a trailing
newline is *not* a separator: the separator regex `(\s+\n)|(\n)` demands the
newline. -/
theorem claim_C2 :
    (∀ lines : List (List Char),
        headerBlock lines =
          ((lines.drop 1).findIdx? sepStruct).map fun i => (lines.drop 1).take i) ∧
    ∀ s, reMatchB sepRE s = sepStruct s := by
  constructor
  · intro lines
    simp only [headerBlock]
    have hfun : (lines.drop 1).findIdx? (reMatchB sepRE) =
        (lines.drop 1).findIdx? sepStruct := by
      congr 1
      funext s
      exact reMatchB_sepRE_eq_sepStruct s
    rw [hfun]
    rcases h : (lines.drop 1).findIdx? sepStruct with _ | ix
    · rfl
    · rfl
  · exact reMatchB_sepRE_eq_sepStruct

/-- C2 counterexample: in the file whose lines are `"\n"`, `"A\n"`, `" "`,
the final line `" "` is entirely whitespace — the claim's separator — yet
the code finds no separator and raises (the truncation never happens). -/
theorem claim_C2_counterexample :
    specSeparator (" ".toList) = true ∧
    headerBlock [['\n'], ['A', '\n'], [' ']] = none := by
  constructor
  · decide
  · decide

theorem findAllL_eq_nil_iff (nm : String) (ns : List Node) :
    findAllL nm ns = [] ↔ hasTagL nm ns = false := by
  induction ns using findAllL.induct nm with
  | case1 => simp [findAllL, hasTagL]
  | case2 s rest ih =>
    rw [findAllL, hasTagL]
    exact ih
  | case3 n cs rest ih1 ih2 =>
    rw [findAllL, hasTagL]
    by_cases h : n = nm
    · simp [h]
    · simp only [if_neg h, List.nil_append, List.append_eq_nil]
      rw [ih1, ih2]
      simp [h]

theorem findAllL_mem (nm : String) (ns : List Node) (x : Node)
    (hx : x ∈ findAllL nm ns) : ∃ cs, x = Node.tag nm cs := by
  induction ns using findAllL.induct nm with
  | case1 => simp [findAllL] at hx
  | case2 s rest ih =>
    rw [findAllL] at hx
    exact ih hx
  | case3 n cs rest ih1 ih2 =>
    rw [findAllL] at hx
    rcases List.mem_append.mp hx with hx | hx
    · rcases List.mem_append.mp hx with hx | hx
      · by_cases h : n = nm
        · rw [if_pos h] at hx
          rcases List.mem_singleton.mp hx with rfl
          exact ⟨cs, by rw [h]⟩
        · rw [if_neg h] at hx
          simp at hx
      · exact ih1 hx
    · exact ih2 hx

theorem seqOptions_eq_none_iff {α : Type} (l : List (Option α)) :
    seqOptions l = none ↔ none ∈ l := by
  induction l with
  | nil => simp [seqOptions]
  | cons a rest ih =>
    rcases a with _ | v
    · simp [seqOptions]
    · rw [seqOptions]
      rcases h : seqOptions rest with _ | w
      · rw [h] at ih
        simp only [Option.map_none']
        simp [ih.mp rfl]
      · rw [h] at ih
        simp only [Option.map_some']
        constructor
        · intro hcontr
          exact Option.noConfusion hcontr
        · intro hmem
          rcases List.mem_cons.mp hmem with hmem | hmem
          · exact Option.noConfusion hmem
          · exact Option.noConfusion (ih.mpr hmem)

/-- C4 (amended): `get_table_from_imgw` returns the first table element of
the parsed page in document order; when the page contains no table element
it returns the `None` sentinel — a normal return value, not a propagated
error (bs4 `find` returns `None` on no match). -/
theorem claim_C4 (doc : List Node) :
    (get_table_from_imgw doc = none ↔ hasTagL "table" doc = false) ∧
    ∀ t, get_table_from_imgw doc = some t → ∃ cs, t = Node.tag "table" cs := by
  constructor
  · rw [get_table_from_imgw, List.head?_eq_none_iff]
    exact findAllL_eq_nil_iff "table" doc
  · intro t ht
    rw [get_table_from_imgw] at ht
    have hmem : t ∈ findAllL "table" doc := by
      rcases hl : findAllL "table" doc with _ | ⟨y, rest⟩
      · rw [hl] at ht
        exact Option.noConfusion ht
      · rw [hl] at ht
        have : y = t := Option.some.inj ht
        subst this
        exact List.mem_cons_self y rest
    exact findAllL_mem "table" doc t hmem

/-- C4 witness: `claim_C4` applied to a table-less page. -/
theorem claim_C4_witness :
    get_table_from_imgw [Node.tag "html" [Node.tag "body" []]] = none :=
  (claim_C4 [Node.tag "html" [Node.tag "body" []]]).1.mpr (by simp [hasTagL])

/-- C4 counterexample: on a page whose body contains no table element the
function returns the non-failing sentinel `None` (here `none` as a normal
return value of the total function) instead of failing with a propagated
error, contradicting the claim. -/
theorem claim_C4_counterexample :
    get_table_from_imgw [Node.tag "body" [Node.tag "p" [Node.text ['x']]]] = none := by
  simp [get_table_from_imgw, findAllL]

/-- C10: if some link in the table yields no plain string (`.string` is
`None` — zero or several children), both extractors raise the `TypeError`
of `re.match(pattern, None)` (modelled by `none`) instead of skipping the
entry; and when every link yields a plain string, both are total. -/
theorem claim_C10 (t : Node) :
    ((∃ n ∈ findAllIn "a" t, nodeString n = none) →
      get_dates_from_table t = none ∧ get_info_files_from_table t = none) ∧
    ((∀ n ∈ findAllIn "a" t, (nodeString n).isSome) →
      (get_dates_from_table t).isSome ∧ (get_info_files_from_table t).isSome) := by
  constructor
  · rintro ⟨n, hn, hns⟩
    have hnone : seqOptions ((findAllIn "a" t).map nodeString) = none := by
      rw [seqOptions_eq_none_iff]
      rw [List.mem_map]
      exact ⟨n, hn, hns⟩
    constructor
    · rw [get_dates_from_table, hnone]
      rfl
    · rw [get_info_files_from_table, hnone]
      rfl
  · intro hall
    have hsome : (seqOptions ((findAllIn "a" t).map nodeString)).isSome := by
      rcases h : seqOptions ((findAllIn "a" t).map nodeString) with _ | v
      · rw [seqOptions_eq_none_iff, List.mem_map] at h
        rcases h with ⟨n, hn, hns⟩
        have := hall n hn
        rw [hns] at this
        simp at this
      · rfl
    rcases Option.isSome_iff_exists.mp hsome with ⟨v, hv⟩
    constructor
    · rw [get_dates_from_table, hv]
      rfl
    · rw [get_info_files_from_table, hv]
      rfl

/-- C10 witness: `claim_C10` applied to a table holding one link with two
text children (so `.string` is `None`) — both extractors fault. -/
theorem claim_C10_witness :
    get_dates_from_table
        (Node.tag "table" [Node.tag "a" [Node.text ['x'], Node.text ['y']]]) = none ∧
    get_info_files_from_table
        (Node.tag "table" [Node.tag "a" [Node.text ['x'], Node.text ['y']]]) = none :=
  (claim_C10 _).1
    ⟨Node.tag "a" [Node.text ['x'], Node.text ['y']], by simp [findAllIn, findAllL],
      by simp [nodeString]⟩

theorem reMatchB_infoRE_iff (s : List Char) : reMatchB infoRE s = true ↔ InfoName s := by
  constructor
  · intro h
    have h0 : (matchFrom s infoRE 0 some).isSome := h
    rw [infoRE, matchFrom_seq, matchFrom_cls_isSome] at h0
    rcases h0 with ⟨c0, hc0, hw0, h1⟩
    have h1' : (matchFrom s (.seq (.star isWordChar) (.seq (.cls notNL)
        (.seq (.cls (· = 't')) (.seq (.cls (· = 'x')) (.seq (.cls (· = 't')) .eol)))))
        (0 + 1) some).isSome := h1
    rw [matchFrom_seq, matchFrom_star_isSome] at h1'
    rcases h1' with ⟨d, hd, h2⟩
    have h2' : (matchFrom s (.seq (.cls notNL)
        (.seq (.cls (· = 't')) (.seq (.cls (· = 'x')) (.seq (.cls (· = 't')) .eol))))
        (0 + 1 + d) some).isSome := h2
    rw [matchFrom_seq, matchFrom_cls_isSome] at h2'
    rcases h2' with ⟨c1, hc1, hn1, h3⟩
    have h3' : (matchFrom s
        (.seq (.cls (· = 't')) (.seq (.cls (· = 'x')) (.seq (.cls (· = 't')) .eol)))
        (0 + 1 + d + 1) some).isSome := h3
    rw [matchFrom_seq, matchFrom_cls_isSome] at h3'
    rcases h3' with ⟨c2, hc2, ht2, h4⟩
    have h4' : (matchFrom s (.seq (.cls (· = 'x')) (.seq (.cls (· = 't')) .eol))
        (0 + 1 + d + 1 + 1) some).isSome := h4
    rw [matchFrom_seq, matchFrom_cls_isSome] at h4'
    rcases h4' with ⟨c3, hc3, hx3, h5⟩
    have h5' : (matchFrom s (.seq (.cls (· = 't')) .eol)
        (0 + 1 + d + 1 + 1 + 1) some).isSome := h5
    rw [matchFrom_seq, matchFrom_cls_isSome] at h5'
    rcases h5' with ⟨c4, hc4, ht4, h6⟩
    have h6' : (matchFrom s .eol (0 + 1 + d + 1 + 1 + 1 + 1) some).isSome := h6
    rw [matchFrom_eol_isSome] at h6'
    rcases h6' with ⟨hend, _⟩
    have hc2' : c2 = 't' := by simpa using ht2
    have hc3' : c3 = 'x' := by simpa using hx3
    have hc4' : c4 = 't' := by simpa using ht4
    subst hc2' hc3' hc4'
    refine ⟨d + 1, by omega, ?_, ?_, ?_, ?_, ?_, ?_⟩
    · intro i hi
      cases i with
      | zero => exact ⟨c0, hc0, hw0⟩
      | succ t =>
        rcases (le_runP_iff isWordChar (s.drop (0 + 1)) d).mp hd t (by omega) with ⟨c, hc, hwc⟩
        rw [List.getElem?_drop] at hc
        have e : 0 + 1 + t = t + 1 := by omega
        rw [e] at hc
        exact ⟨c, hc, hwc⟩
    · have e : 0 + 1 + d = d + 1 := by omega
      rw [e] at hc1
      exact ⟨c1, hc1, hn1⟩
    · have e : 0 + 1 + d + 1 = d + 1 + 1 := by omega
      rw [e] at hc2
      exact hc2
    · have e : 0 + 1 + d + 1 + 1 = d + 1 + 2 := by omega
      rw [e] at hc3
      exact hc3
    · have e : 0 + 1 + d + 1 + 1 + 1 = d + 1 + 3 := by omega
      rw [e] at hc4
      exact hc4
    · rcases hend with hend | ⟨hlen, hnl⟩
      · left
        omega
      · right
        constructor
        · omega
        · have e : 0 + 1 + d + 1 + 1 + 1 + 1 = d + 1 + 4 := by omega
          rw [e] at hnl
          exact hnl
  · rintro ⟨L, hL, hw, ⟨c1, hc1, hn1⟩, ht2, hx3, ht4, hend⟩
    show (matchFrom s infoRE 0 some).isSome = true
    rw [infoRE, matchFrom_seq, matchFrom_cls_isSome]
    rcases hw 0 (by omega) with ⟨c0, hc0, hw0⟩
    refine ⟨c0, hc0, hw0, ?_⟩
    show (matchFrom s (.seq (.star isWordChar) (.seq (.cls notNL)
        (.seq (.cls (· = 't')) (.seq (.cls (· = 'x')) (.seq (.cls (· = 't')) .eol)))))
        (0 + 1) some).isSome = true
    rw [matchFrom_seq, matchFrom_star_isSome]
    refine ⟨L - 1, ?_, ?_⟩
    · rw [le_runP_iff]
      intro t ht
      rcases hw (t + 1) (by omega) with ⟨c, hc, hwc⟩
      refine ⟨c, ?_, hwc⟩
      rw [List.getElem?_drop]
      have e : 0 + 1 + t = t + 1 := by omega
      rw [e]
      exact hc
    · show (matchFrom s (.seq (.cls notNL)
        (.seq (.cls (· = 't')) (.seq (.cls (· = 'x')) (.seq (.cls (· = 't')) .eol))))
        (0 + 1 + (L - 1)) some).isSome = true
      have eL : 0 + 1 + (L - 1) = L := by omega
      rw [eL, matchFrom_seq, matchFrom_cls_isSome]
      refine ⟨c1, hc1, hn1, ?_⟩
      show (matchFrom s
          (.seq (.cls (· = 't')) (.seq (.cls (· = 'x')) (.seq (.cls (· = 't')) .eol)))
          (L + 1) some).isSome = true
      rw [matchFrom_seq, matchFrom_cls_isSome]
      refine ⟨'t', ht2, by simp, ?_⟩
      show (matchFrom s (.seq (.cls (· = 'x')) (.seq (.cls (· = 't')) .eol))
          (L + 1 + 1) some).isSome = true
      rw [matchFrom_seq, matchFrom_cls_isSome]
      refine ⟨'x', by simpa [Nat.add_assoc] using hx3, by simp, ?_⟩
      show (matchFrom s (.seq (.cls (· = 't')) .eol) (L + 1 + 1 + 1) some).isSome = true
      rw [matchFrom_seq, matchFrom_cls_isSome]
      refine ⟨'t', by simpa [show L + 1 + 1 + 1 = L + 3 from by omega] using ht4, by simp, ?_⟩
      show (matchFrom s .eol (L + 1 + 1 + 1 + 1) some).isSome = true
      rw [matchFrom_eol_isSome]
      refine ⟨?_, by simp⟩
      rcases hend with hend | ⟨hlen, hnl⟩
      · left
        omega
      · right
        constructor
        · omega
        · have e : L + 1 + 1 + 1 + 1 = L + 4 := by omega
          rw [e]
          exact hnl

theorem reMatchB_dateRE_iff (s : List Char) : reMatchB dateRE s = true ↔ DateName s := by
  constructor
  · intro h
    have h0 : (matchFrom s dateRE 0 some).isSome := h
    rw [dateRE, matchFrom_alt_isSome] at h0
    show DateName s
    rcases h0 with h0 | h0
    · left
      rw [matchFrom_seq, matchFrom_cls_isSome] at h0
      rcases h0 with ⟨a0, ha0, hd0, h1⟩
      have h1' : (matchFrom s (.seq (.cls isDigitCh) (.seq (.cls isDigitCh)
          (.seq (.cls isDigitCh) (.seq (.cls (· = '/')) .eol)))) (0 + 1) some).isSome := h1
      rw [matchFrom_seq, matchFrom_cls_isSome] at h1'
      rcases h1' with ⟨a1, ha1, hd1, h2⟩
      have h2' : (matchFrom s (.seq (.cls isDigitCh)
          (.seq (.cls isDigitCh) (.seq (.cls (· = '/')) .eol))) (0 + 1 + 1) some).isSome := h2
      rw [matchFrom_seq, matchFrom_cls_isSome] at h2'
      rcases h2' with ⟨a2, ha2, hd2, h3⟩
      have h3' : (matchFrom s (.seq (.cls isDigitCh) (.seq (.cls (· = '/')) .eol))
          (0 + 1 + 1 + 1) some).isSome := h3
      rw [matchFrom_seq, matchFrom_cls_isSome] at h3'
      rcases h3' with ⟨a3, ha3, hd3, h4⟩
      have h4' : (matchFrom s (.seq (.cls (· = '/')) .eol)
          (0 + 1 + 1 + 1 + 1) some).isSome := h4
      rw [matchFrom_seq, matchFrom_cls_isSome] at h4'
      rcases h4' with ⟨a4, ha4, hs4, h5⟩
      have hsl : a4 = '/' := by simpa using hs4
      subst hsl
      have h5' : (matchFrom s .eol (0 + 1 + 1 + 1 + 1 + 1) some).isSome := h5
      rw [matchFrom_eol_isSome] at h5'
      rcases h5' with ⟨hend, _⟩
      refine ⟨?_, ?_, ?_⟩
      · intro i hi
        interval_cases i
        · exact ⟨a0, ha0, hd0⟩
        · exact ⟨a1, by simpa using ha1, hd1⟩
        · exact ⟨a2, by simpa using ha2, hd2⟩
        · exact ⟨a3, by simpa using ha3, hd3⟩
      · simpa using ha4
      · rcases hend with hend | ⟨hlen, hnl⟩
        · left
          omega
        · right
          exact ⟨by omega, by simpa using hnl⟩
    · right
      rw [matchFrom_seq, matchFrom_cls_isSome] at h0
      rcases h0 with ⟨a0, ha0, hd0, h1⟩
      have h1' : (matchFrom s (.seq (.cls isDigitCh) (.seq (.cls isDigitCh)
          (.seq (.cls isDigitCh) (.seq (.cls (· = '_')) (.seq (.cls isDigitCh)
          (.seq (.cls isDigitCh) (.seq (.cls isDigitCh) (.seq (.cls isDigitCh)
          (.seq (.cls (· = '/')) .eol)))))))))
          (0 + 1) some).isSome := h1
      rw [matchFrom_seq, matchFrom_cls_isSome] at h1'
      rcases h1' with ⟨a1, ha1, hd1, h2⟩
      have h2' : (matchFrom s (.seq (.cls isDigitCh)
          (.seq (.cls isDigitCh) (.seq (.cls (· = '_')) (.seq (.cls isDigitCh)
          (.seq (.cls isDigitCh) (.seq (.cls isDigitCh) (.seq (.cls isDigitCh)
          (.seq (.cls (· = '/')) .eol)))))))) (0 + 1 + 1) some).isSome := h2
      rw [matchFrom_seq, matchFrom_cls_isSome] at h2'
      rcases h2' with ⟨a2, ha2, hd2, h3⟩
      have h3' : (matchFrom s (.seq (.cls isDigitCh) (.seq (.cls (· = '_'))
          (.seq (.cls isDigitCh) (.seq (.cls isDigitCh) (.seq (.cls isDigitCh)
          (.seq (.cls isDigitCh) (.seq (.cls (· = '/')) .eol)))))))
          (0 + 1 + 1 + 1) some).isSome := h3
      rw [matchFrom_seq, matchFrom_cls_isSome] at h3'
      rcases h3' with ⟨a3, ha3, hd3, h4⟩
      have h4' : (matchFrom s (.seq (.cls (· = '_'))
          (.seq (.cls isDigitCh) (.seq (.cls isDigitCh) (.seq (.cls isDigitCh)
          (.seq (.cls isDigitCh) (.seq (.cls (· = '/')) .eol))))))
          (0 + 1 + 1 + 1 + 1) some).isSome := h4
      rw [matchFrom_seq, matchFrom_cls_isSome] at h4'
      rcases h4' with ⟨a4, ha4, hu4, h5⟩
      have h5' : (matchFrom s (.seq (.cls isDigitCh) (.seq (.cls isDigitCh)
          (.seq (.cls isDigitCh) (.seq (.cls isDigitCh) (.seq (.cls (· = '/')) .eol)))))
          (0 + 1 + 1 + 1 + 1 + 1) some).isSome := h5
      rw [matchFrom_seq, matchFrom_cls_isSome] at h5'
      rcases h5' with ⟨a5, ha5, hd5, h6⟩
      have h6' : (matchFrom s (.seq (.cls isDigitCh)
          (.seq (.cls isDigitCh) (.seq (.cls isDigitCh) (.seq (.cls (· = '/')) .eol))))
          (0 + 1 + 1 + 1 + 1 + 1 + 1) some).isSome := h6
      rw [matchFrom_seq, matchFrom_cls_isSome] at h6'
      rcases h6' with ⟨a6, ha6, hd6, h7⟩
      have h7' : (matchFrom s (.seq (.cls isDigitCh)
          (.seq (.cls isDigitCh) (.seq (.cls (· = '/')) .eol)))
          (0 + 1 + 1 + 1 + 1 + 1 + 1 + 1) some).isSome := h7
      rw [matchFrom_seq, matchFrom_cls_isSome] at h7'
      rcases h7' with ⟨a7, ha7, hd7, h8⟩
      have h8' : (matchFrom s (.seq (.cls isDigitCh) (.seq (.cls (· = '/')) .eol))
          (0 + 1 + 1 + 1 + 1 + 1 + 1 + 1 + 1) some).isSome := h8
      rw [matchFrom_seq, matchFrom_cls_isSome] at h8'
      rcases h8' with ⟨a8, ha8, hd8, h9⟩
      have h9' : (matchFrom s (.seq (.cls (· = '/')) .eol)
          (0 + 1 + 1 + 1 + 1 + 1 + 1 + 1 + 1 + 1) some).isSome := h9
      rw [matchFrom_seq, matchFrom_cls_isSome] at h9'
      rcases h9' with ⟨a9, ha9, hs9, h10⟩
      have hsl : a9 = '/' := by simpa using hs9
      subst hsl
      have h10' : (matchFrom s .eol (0 + 1 + 1 + 1 + 1 + 1 + 1 + 1 + 1 + 1 + 1) some).isSome := h10
      rw [matchFrom_eol_isSome] at h10'
      rcases h10' with ⟨hend, _⟩
      have hu4' : a4 = '_' := by simpa using hu4
      subst hu4'
      refine ⟨?_, by simpa using ha4, ?_, by simpa using ha9, ?_⟩
      · intro i hi
        interval_cases i
        · exact ⟨a0, ha0, hd0⟩
        · exact ⟨a1, by simpa using ha1, hd1⟩
        · exact ⟨a2, by simpa using ha2, hd2⟩
        · exact ⟨a3, by simpa using ha3, hd3⟩
      · intro i h5i h9i
        interval_cases i
        · exact ⟨a5, by simpa using ha5, hd5⟩
        · exact ⟨a6, by simpa using ha6, hd6⟩
        · exact ⟨a7, by simpa using ha7, hd7⟩
        · exact ⟨a8, by simpa using ha8, hd8⟩
      · rcases hend with hend | ⟨hlen, hnl⟩
        · left
          omega
        · right
          exact ⟨by omega, by simpa using hnl⟩
  · intro hp
    show (matchFrom s dateRE 0 some).isSome = true
    rw [dateRE, matchFrom_alt_isSome]
    rcases hp with ⟨hdig, hsl, hend⟩ | ⟨hdig, hund, hdig2, hsl, hend⟩
    · left
      rcases hdig 0 (by omega) with ⟨a0, ha0, hd0⟩
      rcases hdig 1 (by omega) with ⟨a1, ha1, hd1⟩
      rcases hdig 2 (by omega) with ⟨a2, ha2, hd2⟩
      rcases hdig 3 (by omega) with ⟨a3, ha3, hd3⟩
      rw [matchFrom_seq, matchFrom_cls_isSome]
      refine ⟨a0, ha0, hd0, ?_⟩
      show (matchFrom s (.seq (.cls isDigitCh) (.seq (.cls isDigitCh)
          (.seq (.cls isDigitCh) (.seq (.cls (· = '/')) .eol)))) (0 + 1) some).isSome = true
      rw [matchFrom_seq, matchFrom_cls_isSome]
      refine ⟨a1, by simpa using ha1, hd1, ?_⟩
      show (matchFrom s (.seq (.cls isDigitCh)
          (.seq (.cls isDigitCh) (.seq (.cls (· = '/')) .eol))) (0 + 1 + 1) some).isSome = true
      rw [matchFrom_seq, matchFrom_cls_isSome]
      refine ⟨a2, by simpa using ha2, hd2, ?_⟩
      show (matchFrom s (.seq (.cls isDigitCh) (.seq (.cls (· = '/')) .eol))
          (0 + 1 + 1 + 1) some).isSome = true
      rw [matchFrom_seq, matchFrom_cls_isSome]
      refine ⟨a3, by simpa using ha3, hd3, ?_⟩
      show (matchFrom s (.seq (.cls (· = '/')) .eol) (0 + 1 + 1 + 1 + 1) some).isSome = true
      rw [matchFrom_seq, matchFrom_cls_isSome]
      refine ⟨'/', by simpa using hsl, by simp, ?_⟩
      show (matchFrom s .eol (0 + 1 + 1 + 1 + 1 + 1) some).isSome = true
      rw [matchFrom_eol_isSome]
      refine ⟨?_, by simp⟩
      rcases hend with hend | ⟨hlen, hnl⟩
      · left
        omega
      · right
        exact ⟨by omega, by simpa using hnl⟩
    · right
      rcases hdig 0 (by omega) with ⟨a0, ha0, hd0⟩
      rcases hdig 1 (by omega) with ⟨a1, ha1, hd1⟩
      rcases hdig 2 (by omega) with ⟨a2, ha2, hd2⟩
      rcases hdig 3 (by omega) with ⟨a3, ha3, hd3⟩
      rcases hdig2 5 (by omega) (by omega) with ⟨a5, ha5, hd5⟩
      rcases hdig2 6 (by omega) (by omega) with ⟨a6, ha6, hd6⟩
      rcases hdig2 7 (by omega) (by omega) with ⟨a7, ha7, hd7⟩
      rcases hdig2 8 (by omega) (by omega) with ⟨a8, ha8, hd8⟩
      rw [matchFrom_seq, matchFrom_cls_isSome]
      refine ⟨a0, ha0, hd0, ?_⟩
      show (matchFrom s (.seq (.cls isDigitCh) (.seq (.cls isDigitCh)
          (.seq (.cls isDigitCh) (.seq (.cls (· = '_')) (.seq (.cls isDigitCh)
          (.seq (.cls isDigitCh) (.seq (.cls isDigitCh) (.seq (.cls isDigitCh)
          (.seq (.cls (· = '/')) .eol))))))))) (0 + 1) some).isSome = true
      rw [matchFrom_seq, matchFrom_cls_isSome]
      refine ⟨a1, by simpa using ha1, hd1, ?_⟩
      show (matchFrom s (.seq (.cls isDigitCh)
          (.seq (.cls isDigitCh) (.seq (.cls (· = '_')) (.seq (.cls isDigitCh)
          (.seq (.cls isDigitCh) (.seq (.cls isDigitCh) (.seq (.cls isDigitCh)
          (.seq (.cls (· = '/')) .eol)))))))) (0 + 1 + 1) some).isSome = true
      rw [matchFrom_seq, matchFrom_cls_isSome]
      refine ⟨a2, by simpa using ha2, hd2, ?_⟩
      show (matchFrom s (.seq (.cls isDigitCh) (.seq (.cls (· = '_'))
          (.seq (.cls isDigitCh) (.seq (.cls isDigitCh) (.seq (.cls isDigitCh)
          (.seq (.cls isDigitCh) (.seq (.cls (· = '/')) .eol)))))))
          (0 + 1 + 1 + 1) some).isSome = true
      rw [matchFrom_seq, matchFrom_cls_isSome]
      refine ⟨a3, by simpa using ha3, hd3, ?_⟩
      show (matchFrom s (.seq (.cls (· = '_'))
          (.seq (.cls isDigitCh) (.seq (.cls isDigitCh) (.seq (.cls isDigitCh)
          (.seq (.cls isDigitCh) (.seq (.cls (· = '/')) .eol))))))
          (0 + 1 + 1 + 1 + 1) some).isSome = true
      rw [matchFrom_seq, matchFrom_cls_isSome]
      refine ⟨'_', by simpa using hund, by simp, ?_⟩
      show (matchFrom s (.seq (.cls isDigitCh) (.seq (.cls isDigitCh)
          (.seq (.cls isDigitCh) (.seq (.cls isDigitCh) (.seq (.cls (· = '/')) .eol)))))
          (0 + 1 + 1 + 1 + 1 + 1) some).isSome = true
      rw [matchFrom_seq, matchFrom_cls_isSome]
      refine ⟨a5, by simpa using ha5, hd5, ?_⟩
      show (matchFrom s (.seq (.cls isDigitCh)
          (.seq (.cls isDigitCh) (.seq (.cls isDigitCh) (.seq (.cls (· = '/')) .eol))))
          (0 + 1 + 1 + 1 + 1 + 1 + 1) some).isSome = true
      rw [matchFrom_seq, matchFrom_cls_isSome]
      refine ⟨a6, by simpa using ha6, hd6, ?_⟩
      show (matchFrom s (.seq (.cls isDigitCh)
          (.seq (.cls isDigitCh) (.seq (.cls (· = '/')) .eol)))
          (0 + 1 + 1 + 1 + 1 + 1 + 1 + 1) some).isSome = true
      rw [matchFrom_seq, matchFrom_cls_isSome]
      refine ⟨a7, by simpa using ha7, hd7, ?_⟩
      show (matchFrom s (.seq (.cls isDigitCh) (.seq (.cls (· = '/')) .eol))
          (0 + 1 + 1 + 1 + 1 + 1 + 1 + 1 + 1) some).isSome = true
      rw [matchFrom_seq, matchFrom_cls_isSome]
      refine ⟨a8, by simpa using ha8, hd8, ?_⟩
      show (matchFrom s (.seq (.cls (· = '/')) .eol)
          (0 + 1 + 1 + 1 + 1 + 1 + 1 + 1 + 1 + 1) some).isSome = true
      rw [matchFrom_seq, matchFrom_cls_isSome]
      refine ⟨'/', by simpa using hsl, by simp, ?_⟩
      show (matchFrom s .eol (0 + 1 + 1 + 1 + 1 + 1 + 1 + 1 + 1 + 1 + 1) some).isSome = true
      rw [matchFrom_eol_isSome]
      refine ⟨?_, by simp⟩
      rcases hend with hend | ⟨hlen, hnl⟩
      · left
        omega
      · right
        exact ⟨by omega, by simpa using hnl⟩

/-! ### Claims C5 and C6 -/

theorem seqOptions_map_some {α : Type} (l : List α) :
    seqOptions (l.map some) = some l := by
  induction l with
  | nil => rfl
  | cons a rest ih => simp [seqOptions, ih]

/-- C5 (amended): `get_info_files_from_table` keeps a link text exactly when
it matches `(\w+).txt$` — one or more word characters, one arbitrary
non-newline character, then `txt` at the end (the dot being unescaped,
ending in `.txt` is neither necessary nor sufficient) — and returns the kept
texts in table order with every slash removed. -/
theorem claim_C5 :
    (∀ (t : Node) (ls : List (List Char)),
        (findAllIn "a" t).map nodeString = ls.map some →
        get_info_files_from_table t =
          some ((ls.filter (reMatchB infoRE)).map removeSlash)) ∧
    ∀ s, reMatchB infoRE s = true ↔ InfoName s := by
  constructor
  · intro t ls h
    rw [get_info_files_from_table, h, seqOptions_map_some]
    rfl
  · exact reMatchB_infoRE_iff

/-- C5 witness: `claim_C5` applied to a table with the single link
`name.txt`. -/
theorem claim_C5_witness :
    get_info_files_from_table
        (Node.tag "table" [Node.tag "a" [Node.text ("name.txt".toList)]]) =
      some (([("name.txt".toList)].filter (reMatchB infoRE)).map removeSlash) :=
  claim_C5.1 _ [("name.txt".toList)] (by simp [findAllIn, findAllL, nodeString])

/-- C5 counterexample: the link text `abtxt` does not end in `.txt`, yet the
code includes it (the unescaped dot of `(\w+).txt$` matches the `b`),
refuting "excludes every name not ending in `.txt`". -/
theorem claim_C5_counterexample :
    endsTxt ("abtxt".toList) = false ∧
    get_info_files_from_table
        (Node.tag "table" [Node.tag "a" [Node.text ("abtxt".toList)]]) =
      some [("abtxt".toList)] := by
  constructor
  · decide
  · have h1 : (findAllIn "a"
        (Node.tag "table" [Node.tag "a" [Node.text ("abtxt".toList)]])).map nodeString
        = [("abtxt".toList)].map some := by
      simp [findAllIn, findAllL, nodeString]
    rw [get_info_files_from_table, h1, seqOptions_map_some]
    decide

/-- C6 (amended): `get_dates_from_table` keeps a link text exactly when it
matches `^\d{4}/$` or `^\d{4}_\d{4}/$` under CPython `$` semantics — which
also tolerates a single newline after the slash at the very end of the text
(such an entry is kept, and keeps its newline after the slash is removed).
Every name `N` of the bare `\d{4}` or `\d{4}_\d{4}` shape is matched when
written `N + "/"` and is returned as `N`; results keep table order and
duplicates. -/
theorem claim_C6 :
    (∀ (t : Node) (ls : List (List Char)),
        (findAllIn "a" t).map nodeString = ls.map some →
        get_dates_from_table t =
          some ((ls.filter (reMatchB dateRE)).map removeSlash)) ∧
    (∀ s, reMatchB dateRE s = true ↔ DateName s) ∧
    ∀ N, specDateName N = true →
      reMatchB dateRE (N ++ ['/']) = true ∧ removeSlash (N ++ ['/']) = N := by
  refine ⟨?_, reMatchB_dateRE_iff, ?_⟩
  · intro t ls h
    rw [get_dates_from_table, h, seqOptions_map_some]
    rfl
  · intro N h
    rw [specDateName] at h
    rcases Bool.or_eq_true_iff.mp h with h | h
    · rcases Bool.and_eq_true_iff.mp h with ⟨hlen, hdig⟩
      have hlen' : N.length = 4 := by simpa using hlen
      rcases N with _ | ⟨a, N⟩
      · simp at hlen'
      rcases N with _ | ⟨b, N⟩
      · simp at hlen'
      rcases N with _ | ⟨c, N⟩
      · simp at hlen'
      rcases N with _ | ⟨d, N⟩
      · simp at hlen'
      rcases N with _ | ⟨e, N⟩
      · simp only [List.all_eq_true] at hdig
        have ha := hdig a (by simp)
        have hb := hdig b (by simp)
        have hc := hdig c (by simp)
        have hd := hdig d (by simp)
        constructor
        · rw [reMatchB_dateRE_iff]
          left
          refine ⟨?_, by simp, by simp⟩
          intro i hi
          interval_cases i
          · exact ⟨a, by simp, ha⟩
          · exact ⟨b, by simp, hb⟩
          · exact ⟨c, by simp, hc⟩
          · exact ⟨d, by simp, hd⟩
        · have hne : ∀ x, isDigitCh x = true → x ≠ '/' := by
            intro x hx he
            rw [he] at hx
            exact absurd hx (by decide)
          simp [removeSlash, List.filter, hne a ha, hne b hb, hne c hc, hne d hd]
      · simp at hlen'
    · rcases Bool.and_eq_true_iff.mp h with ⟨h', hdig2⟩
      rcases Bool.and_eq_true_iff.mp h' with ⟨h'', hund⟩
      rcases Bool.and_eq_true_iff.mp h'' with ⟨hlen, hdig1⟩
      have hlen' : N.length = 9 := by simpa using hlen
      rcases N with _ | ⟨a, N⟩
      · simp at hlen'
      rcases N with _ | ⟨b, N⟩
      · simp at hlen'
      rcases N with _ | ⟨c, N⟩
      · simp at hlen'
      rcases N with _ | ⟨d, N⟩
      · simp at hlen'
      rcases N with _ | ⟨u, N⟩
      · simp at hlen'
      rcases N with _ | ⟨e, N⟩
      · simp at hlen'
      rcases N with _ | ⟨f, N⟩
      · simp at hlen'
      rcases N with _ | ⟨g, N⟩
      · simp at hlen'
      rcases N with _ | ⟨k, N⟩
      · simp at hlen'
      rcases N with _ | ⟨m, N⟩
      swap
      · simp at hlen'
      have hu : u = '_' := by simpa using hund
      subst hu
      simp only [List.take, List.drop, List.all_eq_true] at hdig1 hdig2
      have ha := hdig1 a (by simp)
      have hb := hdig1 b (by simp)
      have hc := hdig1 c (by simp)
      have hd := hdig1 d (by simp)
      have he := hdig2 e (by simp)
      have hf := hdig2 f (by simp)
      have hg := hdig2 g (by simp)
      have hk := hdig2 k (by simp)
      constructor
      · rw [reMatchB_dateRE_iff]
        right
        refine ⟨?_, by simp, ?_, by simp, by simp⟩
        · intro i hi
          interval_cases i
          · exact ⟨a, by simp, ha⟩
          · exact ⟨b, by simp, hb⟩
          · exact ⟨c, by simp, hc⟩
          · exact ⟨d, by simp, hd⟩
        · intro i h5 h9
          interval_cases i
          · exact ⟨e, by simp, he⟩
          · exact ⟨f, by simp, hf⟩
          · exact ⟨g, by simp, hg⟩
          · exact ⟨k, by simp, hk⟩
      · have hne : ∀ x, isDigitCh x = true → x ≠ '/' := by
          intro x hx hccontr
          rw [hccontr] at hx
          exact absurd hx (by decide)
        simp [removeSlash, List.filter, hne a ha, hne b hb, hne c hc, hne d hd,
          hne e he, hne f hf, hne g hg, hne k hk]

/-- C6 witness: `claim_C6` applied to a table listing the directories
`1991/` and `other/`. -/
theorem claim_C6_witness :
    get_dates_from_table
        (Node.tag "table" [Node.tag "a" [Node.text ("1991/".toList)],
          Node.tag "a" [Node.text ("other/".toList)]]) =
      some (([("1991/".toList), ("other/".toList)].filter (reMatchB dateRE)).map
        removeSlash) :=
  claim_C6.1 _ [("1991/".toList), ("other/".toList)]
    (by simp [findAllIn, findAllL, nodeString])

/-- C6 counterexample: the link text `"1991/\n"` (a trailing newline after
the slash) matches neither `^\d{4}/$` nor `^\d{4}_\d{4}/$` as a full text,
yet the code keeps it — CPython `$` matches before a final newline — and
returns the entry `"1991\n"`; this refutes "excludes every link text
matching neither pattern". -/
theorem claim_C6_counterexample :
    specDateLink ("1991/\n".toList) = false ∧
    get_dates_from_table
        (Node.tag "table" [Node.tag "a" [Node.text ("1991/\n".toList)]]) =
      some [("1991\n".toList)] := by
  constructor
  · decide
  · have h1 : (findAllIn "a"
        (Node.tag "table" [Node.tag "a" [Node.text ("1991/\n".toList)]])).map nodeString
        = [("1991/\n".toList)].map some := by
      simp [findAllIn, findAllL, nodeString]
    rw [get_dates_from_table, h1, seqOptions_map_some]
    decide

/-- C3: when no listed file both ends in `.csv` and passes the optional name
filter, `merge_imgw_csv_files` raises (`pd.concat` refuses an empty list);
it never returns an empty dataset. -/
theorem claim_C3 {α : Type} (listing : List (List Char × List (List α)))
    (headers : Option (List String)) (pat : Option (List Char → Bool))
    (h : ∀ f ∈ listing, csvSelected pat f.1 = false) :
    merge_imgw_csv_files listing headers pat = .error "No objects to concatenate" := by
  have hfil : listing.filter (fun f => csvSelected pat f.1) = [] := by
    rw [List.filter_eq_nil_iff]
    intro a ha
    rw [h a ha]
    simp
  rw [merge_imgw_csv_files]
  simp only [hfil, List.map_nil]
  rfl

/-- C3 witness: `claim_C3` on a directory holding only `readme.txt`. -/
theorem claim_C3_witness :
    merge_imgw_csv_files [(("readme.txt".toList), ([] : List (List Nat)))] none none =
      .error "No objects to concatenate" :=
  claim_C3 [(("readme.txt".toList), ([] : List (List Nat)))] none none (by decide)

theorem pair_getD {α : Type} (r : List (Option α)) (hr : r.length = 2) :
    [r.getD 0 none, r.getD 1 none] = r := by
  rcases r with _ | ⟨a, r⟩
  · simp at hr
  rcases r with _ | ⟨b, r⟩
  · simp at hr
  rcases r with _ | ⟨c, r⟩
  · simp [List.getD]
  · simp at hr

theorem read_csv_cols_two {α : Type} (rows : List (List α))
    (hne : rows ≠ []) (hw : ∀ r ∈ rows, r.length = 2) :
    (read_csv rows).cols = ["0", "1"] := by
  rcases rows with _ | ⟨rh, rt⟩
  · exact absurd rfl hne
  · have h2 : rh.length = 2 := hw rh (by simp)
    rw [read_csv]
    simp only [List.headD]
    rw [h2]
    decide

theorem realign_id {α : Type} (r : List (Option α)) (hr : r.length = 2) :
    (["0", "1"] : List String).map (fun c =>
      match (["0", "1"] : List String).indexOf? c with
      | some k => r.getD k none
      | none => none) = r := by
  have h0 : (["0", "1"] : List String).indexOf? "0" = some 0 := by decide
  have h1 : (["0", "1"] : List String).indexOf? "1" = some 1 := by decide
  simp only [List.map, h0, h1]
  exact pair_getD r hr

/-- C7: merging three 2-column files of 10, 5 and 7 rows (no name filter)
yields 22 rows and 2 columns by stacking the rows; supplying
`headers = ["a", "b"]` relabels the two columns without changing the row
list (hence neither the row count nor any cell value). -/
theorem claim_C7 {α : Type} (r1 r2 r3 : List (List α))
    (h1 : r1.length = 10) (h2 : r2.length = 5) (h3 : r3.length = 7)
    (w1 : ∀ r ∈ r1, r.length = 2) (w2 : ∀ r ∈ r2, r.length = 2)
    (w3 : ∀ r ∈ r3, r.length = 2) :
    ∃ df : DF α,
      merge_imgw_csv_files
        [("f1.csv".toList, r1), ("f2.csv".toList, r2), ("f3.csv".toList, r3)]
        none none = .ok df ∧
      df.rows.length = 22 ∧ df.cols.length = 2 ∧
      df.rows = (r1.map fun r => r.map some) ++ (r2.map fun r => r.map some) ++
        (r3.map fun r => r.map some) ∧
      merge_imgw_csv_files
        [("f1.csv".toList, r1), ("f2.csv".toList, r2), ("f3.csv".toList, r3)]
        (some ["a", "b"]) none = .ok { cols := ["a", "b"], rows := df.rows } := by
  have hc1 : (read_csv r1).cols = ["0", "1"] :=
    read_csv_cols_two r1 (by intro h; rw [h] at h1; simp at h1) w1
  have hc2 : (read_csv r2).cols = ["0", "1"] :=
    read_csv_cols_two r2 (by intro h; rw [h] at h2; simp at h2) w2
  have hc3 : (read_csv r3).cols = ["0", "1"] :=
    read_csv_cols_two r3 (by intro h; rw [h] at h3; simp at h3) w3
  have hfil : ([("f1.csv".toList, r1), ("f2.csv".toList, r2),
      ("f3.csv".toList, r3)]).filter (fun f => csvSelected none f.1) =
      [("f1.csv".toList, r1), ("f2.csv".toList, r2), ("f3.csv".toList, r3)] := by
    rw [List.filter_eq_self]
    intro a ha
    simp only [List.mem_cons, List.mem_singleton] at ha
    rcases ha with rfl | rfl | rfl | h
    · exact (by decide : csvSelected none ("f1.csv".toList) = true)
    · exact (by decide : csvSelected none ("f2.csv".toList) = true)
    · exact (by decide : csvSelected none ("f3.csv".toList) = true)
    · simp at h
  have hunion : unionCols [(read_csv r1).cols, (read_csv r2).cols, (read_csv r3).cols]
      = ["0", "1"] := by
    rw [hc1, hc2, hc3]
    decide
  have hrows : ∀ (rs : List (List α)), (∀ r ∈ rs, r.length = 2) →
      ((read_csv rs).rows.map fun r => (["0", "1"] : List String).map fun c =>
        match (["0", "1"] : List String).indexOf? c with
        | some k => r.getD k none
        | none => none) = rs.map fun r => r.map some := by
    intro rs hw
    rw [read_csv]
    simp only [List.map_map]
    apply List.map_congr_left
    intro r hr
    simp only [Function.comp]
    exact realign_id (r.map some) (by simp [hw r hr])
  refine ⟨{ cols := ["0", "1"],
            rows := (r1.map fun r => r.map some) ++ (r2.map fun r => r.map some) ++
              (r3.map fun r => r.map some) }, ?_, ?_, ?_, ?_, ?_⟩
  · rw [merge_imgw_csv_files]
    simp only [hfil, List.map_cons, List.map_nil]
    rw [pd_concat]
    simp only [List.map_cons, List.map_nil]
    rw [hunion]
    simp only [List.flatMap_cons, List.flatMap_nil, List.append_nil]
    simp only [hc1, hc2, hc3]
    rw [hrows r1 w1, hrows r2 w2, hrows r3 w3]
    simp only [List.append_assoc]
    rfl
  · simp [h1, h2, h3]
  · rfl
  · rfl
  · rw [merge_imgw_csv_files]
    simp only [hfil, List.map_cons, List.map_nil]
    rw [pd_concat]
    simp only [List.map_cons, List.map_nil]
    rw [hunion]
    simp only [List.flatMap_cons, List.flatMap_nil, List.append_nil]
    simp only [hc1, hc2, hc3]
    rw [hrows r1 w1, hrows r2 w2, hrows r3 w3]
    simp [Except.bind, set_columns, List.append_assoc]

/-- C7 witness: `claim_C7` on three concrete 2-column files of 10, 5 and 7
rows. -/
theorem claim_C7_witness :
    ∃ df : DF Nat,
      merge_imgw_csv_files
        [("f1.csv".toList, List.replicate 10 [1, 2]),
         ("f2.csv".toList, List.replicate 5 [1, 2]),
         ("f3.csv".toList, List.replicate 7 [1, 2])] none none = .ok df ∧
      df.rows.length = 22 ∧ df.cols.length = 2 ∧
      df.rows = ((List.replicate 10 [1, 2]).map fun r => r.map some) ++
        ((List.replicate 5 [1, 2]).map fun r => r.map some) ++
        ((List.replicate 7 [1, 2]).map fun r => r.map some) ∧
      merge_imgw_csv_files
        [("f1.csv".toList, List.replicate 10 [1, 2]),
         ("f2.csv".toList, List.replicate 5 [1, 2]),
         ("f3.csv".toList, List.replicate 7 [1, 2])]
        (some ["a", "b"]) none = .ok { cols := ["a", "b"], rows := df.rows } :=
  claim_C7 (List.replicate 10 [1, 2]) (List.replicate 5 [1, 2])
    (List.replicate 7 [1, 2]) (by decide) (by decide) (by decide)
    (by decide) (by decide) (by decide)

/-- C8: for every non-200 response status, `download_url` leaves the whole
filesystem untouched (the destination is neither created nor modified),
reports the failure message, and returns normally whatever the write
outcome would have been. -/
theorem claim_C8 (status : Nat) (chunks : List (List Nat)) (save_path : List Char)
    (outcome : WriteOutcome) (fs : List Char → Option (List Nat))
    (h : status ≠ 200) :
    download_url status chunks save_path outcome fs =
      (fs, ["File does not exist. Is URL proper? Unable to download the file."]) := by
  rw [download_url.eq_def, if_neg h]

/-- C8 witness: `claim_C8` on a 404 response. -/
theorem claim_C8_witness :
    download_url 404 [[1, 2]] ("out.zip".toList) .ok (fun _ => none) =
      (fun _ => none, ["File does not exist. Is URL proper? Unable to download the file."]) :=
  claim_C8 404 [[1, 2]] ("out.zip".toList) .ok (fun _ => none) (by decide)

theorem lookupE_replaceE_self (n : String) (e' : Entry) (es : List (String × Entry)) :
    lookupE n (replaceE n e' es) = (lookupE n es).map fun _ => e' := by
  induction es with
  | nil => simp [lookupE, replaceE]
  | cons pr rest ih =>
    rcases pr with ⟨m, e⟩
    by_cases h : m = n
    · simp [lookupE, replaceE, h]
    · simp [lookupE, replaceE, h, ih]

theorem lookupE_replaceE_ne (m n : String) (h : m ≠ n) (e' : Entry)
    (es : List (String × Entry)) :
    lookupE m (replaceE n e' es) = lookupE m es := by
  induction es with
  | nil => simp [lookupE, replaceE]
  | cons pr rest ih =>
    rcases pr with ⟨a, e⟩
    by_cases ha : a = n
    · have ham : ¬(a = m) := fun hc => h (by rw [← hc, ha])
      rw [replaceE, if_pos ha, lookupE, lookupE, if_neg ham, if_neg ham]
    · rw [replaceE, if_neg ha, lookupE, lookupE]
      by_cases ham : a = m
      · rw [if_pos ham, if_pos ham]
      · rw [if_neg ham, if_neg ham]
        exact ih

theorem lookupE_eraseE_ne (m n : String) (h : m ≠ n) (es : List (String × Entry)) :
    lookupE m (eraseE n es) = lookupE m es := by
  induction es with
  | nil => simp [lookupE, eraseE]
  | cons pr rest ih =>
    rcases pr with ⟨a, e⟩
    by_cases ha : a = n
    · have ham : ¬(a = m) := fun hc => h (by rw [← hc, ha])
      rw [eraseE, if_pos ha, lookupE, if_neg ham]
    · rw [eraseE, if_neg ha, lookupE, lookupE]
      by_cases ham : a = m
      · rw [if_pos ham, if_pos ham]
      · rw [if_neg ham, if_neg ham]
        exact ih

theorem replaceE_replaceE (n : String) (c c' : Entry) (es : List (String × Entry)) :
    replaceE n c (replaceE n c' es) = replaceE n c es := by
  induction es with
  | nil => simp [replaceE]
  | cons pr rest ih =>
    rcases pr with ⟨a, e⟩
    by_cases ha : a = n
    · simp [replaceE, ha]
    · simp [replaceE, ha, ih]

theorem replaceE_lookup_self (n : String) (ch : Entry) (es : List (String × Entry))
    (h : lookupE n es = some ch) : replaceE n ch es = es := by
  induction es with
  | nil => simp [lookupE] at h
  | cons pr rest ih =>
    rcases pr with ⟨a, e⟩
    by_cases ha : a = n
    · rw [lookupE, if_pos ha] at h
      have : e = ch := Option.some.inj h
      subst this
      simp [replaceE, ha]
    · rw [lookupE, if_neg ha] at h
      simp [replaceE, ha, ih h]

theorem map_fst_replaceE (n : String) (e' : Entry) (es : List (String × Entry)) :
    (replaceE n e' es).map Prod.fst = es.map Prod.fst := by
  induction es with
  | nil => simp [replaceE]
  | cons pr rest ih =>
    rcases pr with ⟨a, e⟩
    by_cases ha : a = n
    · simp [replaceE, ha]
    · simp [replaceE, ha, ih]

theorem setAt_of_getAt_self (p : List String) (e sub : Entry)
    (h : getAt p e = some sub) : setAt p sub e = some e := by
  induction p generalizing e with
  | nil =>
    have : e = sub := Option.some.inj h
    subst this
    rfl
  | cons n p ih =>
    rcases e with _ | es
    · simp [getAt] at h
    · rw [getAt] at h
      rcases hch : lookupE n es with _ | ch
      · rw [hch] at h
        simp at h
      · rw [hch] at h
        simp only [Option.some_bind] at h
        rw [setAt, hch]
        simp only [Option.some_bind]
        rw [ih ch h]
        simp only [Option.map_some']
        rw [replaceE_lookup_self n ch es hch]

theorem setAt_isSome (p : List String) (e sub x : Entry)
    (h : getAt p e = some sub) : (setAt p x e).isSome := by
  induction p generalizing e with
  | nil => simp [setAt]
  | cons n p ih =>
    rcases e with _ | es
    · simp [getAt] at h
    · rw [getAt] at h
      rcases hch : lookupE n es with _ | ch
      · rw [hch] at h
        simp at h
      · rw [hch] at h
        simp only [Option.some_bind] at h
        rw [setAt, hch]
        simp only [Option.some_bind]
        rcases Option.isSome_iff_exists.mp (ih ch h) with ⟨ch', hch'⟩
        rw [hch']
        simp

theorem getAt_setAt_self (p : List String) (e e₁ s' : Entry)
    (h : setAt p s' e = some e₁) : getAt p e₁ = some s' := by
  induction p generalizing e e₁ with
  | nil =>
    have : s' = e₁ := Option.some.inj h
    subst this
    rfl
  | cons n p ih =>
    rcases e with _ | es
    · simp [setAt] at h
    · rw [setAt] at h
      rcases hch : lookupE n es with _ | ch
      · rw [hch] at h
        simp at h
      · rw [hch] at h
        simp only [Option.some_bind] at h
        rcases hch' : setAt p s' ch with _ | ch'
        · rw [hch'] at h
          simp at h
        · rw [hch'] at h
          simp only [Option.map_some'] at h
          have he₁ : Entry.dir (replaceE n ch' es) = e₁ := Option.some.inj h
          subst he₁
          rw [getAt, lookupE_replaceE_self, hch]
          simp only [Option.map_some', Option.some_bind]
          exact ih ch ch' hch'

theorem setAt_setAt (p : List String) (e e₁ s₁ : Entry)
    (h : setAt p s₁ e = some e₁) (s₂ : Entry) :
    setAt p s₂ e₁ = setAt p s₂ e := by
  induction p generalizing e e₁ with
  | nil => rfl
  | cons n p ih =>
    rcases e with _ | es
    · simp [setAt] at h
    · rw [setAt] at h
      rcases hch : lookupE n es with _ | ch
      · rw [hch] at h
        simp at h
      · rw [hch] at h
        simp only [Option.some_bind] at h
        rcases hch' : setAt p s₁ ch with _ | ch'
        · rw [hch'] at h
          simp at h
        · rw [hch'] at h
          simp only [Option.map_some'] at h
          have he₁ : Entry.dir (replaceE n ch' es) = e₁ := Option.some.inj h
          subst he₁
          rw [setAt, setAt, hch, lookupE_replaceE_self, hch]
          simp only [Option.map_some', Option.some_bind]
          rw [ih ch ch' hch']
          rcases hs₂ : setAt p s₂ ch with _ | c₂
          · rfl
          · simp only [Option.map_some']
            rw [replaceE_replaceE]

theorem runOps_append (A B : List FsOp) (e : Entry) :
    runOps (A ++ B) e = (runOps A e).bind (runOps B) := by
  induction A generalizing e with
  | nil => simp [runOps]
  | cons op A' ih =>
    rw [List.cons_append, runOps, runOps]
    rcases applyOp op e with _ | e'
    · simp
    · simp only [Option.some_bind]
      exact ih e'

theorem applyRemove_append (p q : List String) (hq : q ≠ []) (e : Entry) :
    applyRemove (p ++ q) e =
      (getAt p e).bind fun sub => (applyRemove q sub).bind fun sub' => setAt p sub' e := by
  induction p generalizing e with
  | nil =>
    simp only [List.nil_append, getAt, Option.some_bind]
    rcases applyRemove q e with _ | sub'
    · simp
    · simp [setAt]
  | cons n p ih =>
    rcases e with _ | es
    · rcases hq' : p ++ q with _ | ⟨x, xs⟩
      · rcases List.append_eq_nil.mp hq' with ⟨_, h2⟩
        exact absurd h2 hq
      · rw [List.cons_append, hq']
        simp [applyRemove, getAt]
    · rcases hq' : p ++ q with _ | ⟨x, xs⟩
      · rcases List.append_eq_nil.mp hq' with ⟨_, h2⟩
        exact absurd h2 hq
      · rw [List.cons_append, hq']
        rw [show applyRemove (n :: x :: xs) (.dir es) =
          (match lookupE n es with
           | some ch => (applyRemove (x :: xs) ch).map fun ch' => Entry.dir (replaceE n ch' es)
           | none => none) from rfl]
        rw [show getAt (n :: p) (.dir es) = (lookupE n es).bind (getAt p) from rfl]
        rcases hch : lookupE n es with _ | ch
        · simp
        · simp only [Option.some_bind]
          rw [← hq', ih ch]
          rcases getAt p ch with _ | sub
          · simp
          · simp only [Option.some_bind]
            rcases applyRemove q sub with _ | sub'
            · simp
            · simp only [Option.some_bind]
              rcases hset : setAt p sub' ch with _ | ch'
              · simp [setAt, hch, hset]
              · simp [setAt, hch, hset]

theorem applyRmdir_append (p q : List String) (hq : q ≠ []) (e : Entry) :
    applyRmdir (p ++ q) e =
      (getAt p e).bind fun sub => (applyRmdir q sub).bind fun sub' => setAt p sub' e := by
  induction p generalizing e with
  | nil =>
    simp only [List.nil_append, getAt, Option.some_bind]
    rcases applyRmdir q e with _ | sub'
    · simp
    · simp [setAt]
  | cons n p ih =>
    rcases e with _ | es
    · rcases hq' : p ++ q with _ | ⟨x, xs⟩
      · rcases List.append_eq_nil.mp hq' with ⟨_, h2⟩
        exact absurd h2 hq
      · rw [List.cons_append, hq']
        simp [applyRmdir, getAt]
    · rcases hq' : p ++ q with _ | ⟨x, xs⟩
      · rcases List.append_eq_nil.mp hq' with ⟨_, h2⟩
        exact absurd h2 hq
      · rw [List.cons_append, hq']
        rw [show applyRmdir (n :: x :: xs) (.dir es) =
          (match lookupE n es with
           | some ch => (applyRmdir (x :: xs) ch).map fun ch' => Entry.dir (replaceE n ch' es)
           | none => none) from rfl]
        rw [show getAt (n :: p) (.dir es) = (lookupE n es).bind (getAt p) from rfl]
        rcases hch : lookupE n es with _ | ch
        · simp
        · simp only [Option.some_bind]
          rw [← hq', ih ch]
          rcases getAt p ch with _ | sub
          · simp
          · simp only [Option.some_bind]
            rcases applyRmdir q sub with _ | sub'
            · simp
            · simp only [Option.some_bind]
              rcases hset : setAt p sub' ch with _ | ch'
              · simp [setAt, hch, hset]
              · simp [setAt, hch, hset]

theorem runOps_prefixed (L : List FsOp) (p : List String) :
    ∀ (e sub0 : Entry), (∀ op ∈ L, opPath op ≠ []) → getAt p e = some sub0 →
      runOps (L.map (prefixOp p)) e =
        (runOps L sub0).bind fun sub' => setAt p sub' e := by
  induction L with
  | nil =>
    intro e sub0 hL hget
    simp only [List.map_nil, runOps, Option.some_bind]
    exact (setAt_of_getAt_self p e sub0 hget).symm
  | cons op L' ih =>
    intro e sub0 hL hget
    have hop : opPath op ≠ [] := hL op (by simp)
    have hL' : ∀ o ∈ L', opPath o ≠ [] := fun o ho => hL o (by simp [ho])
    have key : applyOp (prefixOp p op) e =
        (applyOp op sub0).bind fun sub' => setAt p sub' e := by
      rcases op with q | q
      · rw [show prefixOp p (FsOp.rm q) = .rm (p ++ q) from rfl]
        rw [show applyOp (FsOp.rm (p ++ q)) e = applyRemove (p ++ q) e from rfl]
        rw [applyRemove_append p q hop e, hget]
        rfl
      · rw [show prefixOp p (FsOp.rd q) = .rd (p ++ q) from rfl]
        rw [show applyOp (FsOp.rd (p ++ q)) e = applyRmdir (p ++ q) e from rfl]
        rw [applyRmdir_append p q hop e, hget]
        rfl
    rw [List.map_cons, runOps, key, runOps]
    rcases happ : applyOp op sub0 with _ | sub1
    · simp
    · simp only [Option.some_bind]
      rcases Option.isSome_iff_exists.mp (setAt_isSome p e sub0 sub1 hget) with ⟨e₁, he₁⟩
      rw [he₁]
      simp only [Option.some_bind]
      have hget₁ : getAt p e₁ = some sub1 := getAt_setAt_self p e e₁ sub1 he₁
      rw [ih e₁ sub1 hL' hget₁]
      rcases runOps L' sub1 with _ | sub'
      · rfl
      · simp only [Option.some_bind]
        exact setAt_setAt p e e₁ sub1 he₁ sub'

mutual

theorem walkBU_shift (pre : List String) (e : Entry) :
    walkBU pre e = (walkBU [] e).map fun t => (pre ++ t.1, t.2.1, t.2.2) := by
  match e with
  | .file => rfl
  | .dir es =>
    rw [walkBU, walkBU, walkChildren_shift pre es]
    simp [List.map_append]

theorem walkChildren_shift (pre : List String) (es : List (String × Entry)) :
    walkChildren pre es = (walkChildren [] es).map fun t => (pre ++ t.1, t.2.1, t.2.2) := by
  match es with
  | [] => rfl
  | (n, e) :: rest =>
    rw [walkChildren, walkChildren]
    simp only [List.nil_append]
    rw [walkBU_shift (pre ++ [n]) e, walkBU_shift [n] e, walkChildren_shift pre rest]
    simp [List.map_map, List.map_append, Function.comp, List.append_assoc]

end

theorem tripleOps_shift (p : List String) (t : List String × List String × List String) :
    tripleOps (p ++ t.1, t.2.1, t.2.2) = (tripleOps t).map (prefixOp p) := by
  rcases t with ⟨r, ds, fs⟩
  simp only [tripleOps, List.map_append, List.map_map]
  congr 1
  · apply List.map_congr_left
    intro f hf
    simp [Function.comp, prefixOp, List.append_assoc]
  · apply List.map_congr_left
    intro d hd
    simp [Function.comp, prefixOp, List.append_assoc]

theorem cleanOps_shift (p : List String) (e : Entry) :
    (walkBU p e).flatMap tripleOps = (cleanOps e).map (prefixOp p) := by
  rw [cleanOps, walkBU_shift p e, List.flatMap_map, List.map_flatMap]
  congr 1
  funext t
  exact tripleOps_shift p t

theorem tripleOps_path_ne (t : List String × List String × List String) :
    ∀ op ∈ tripleOps t, opPath op ≠ [] := by
  rcases t with ⟨r, ds, fs⟩
  intro op hop
  rw [tripleOps] at hop
  rcases List.mem_append.mp hop with h | h
  · rcases List.mem_map.mp h with ⟨f, _, rfl⟩
    simp [opPath]
  · rcases List.mem_map.mp h with ⟨d, _, rfl⟩
    simp [opPath]

theorem cleanOps_path_ne (e : Entry) : ∀ op ∈ cleanOps e, opPath op ≠ [] := by
  intro op hop
  rw [cleanOps] at hop
  rcases List.mem_flatMap.mp hop with ⟨t, _, hmem⟩
  exact tripleOps_path_ne t op hmem

theorem namesNodupB_iff (l : List String) : namesNodupB l = true ↔ l.Nodup := by
  induction l with
  | nil => simp [namesNodupB]
  | cons n rest ih =>
    rw [namesNodupB, List.nodup_cons, Bool.and_eq_true_iff]
    constructor
    · rintro ⟨h1, h2⟩
      refine ⟨?_, ih.mp h2⟩
      intro hmem
      rw [Bool.not_eq_true', ← Bool.not_eq_true] at h1
      exact h1 (List.elem_iff.mpr hmem)
    · rintro ⟨h1, h2⟩
      refine ⟨?_, ih.mpr h2⟩
      rw [Bool.not_eq_true']
      rcases hc : rest.contains n with _ | _
      · rfl
      · exact absurd (List.elem_iff.mp hc) h1

theorem lookupE_cons_self (n : String) (e : Entry) (ys : List (String × Entry)) :
    lookupE n ((n, e) :: ys) = some e := by
  rw [lookupE, if_pos rfl]

theorem replaceE_cons_self (n : String) (e e' : Entry) (ys : List (String × Entry)) :
    replaceE n e' ((n, e) :: ys) = (n, e') :: ys := by
  rw [replaceE, if_pos rfl]

theorem lookupE_append_right (n : String) (xs ys : List (String × Entry))
    (h : n ∉ xs.map Prod.fst) : lookupE n (xs ++ ys) = lookupE n ys := by
  induction xs with
  | nil => rfl
  | cons pr rest ih =>
    rcases pr with ⟨a, e⟩
    have ha : ¬(a = n) := by
      intro hc
      exact h (by simp [hc])
    rw [List.cons_append, lookupE, if_neg ha]
    exact ih fun hc => h (by simp at hc ⊢; exact Or.inr hc)

theorem replaceE_append_right (n : String) (e' : Entry) (xs ys : List (String × Entry))
    (h : n ∉ xs.map Prod.fst) : replaceE n e' (xs ++ ys) = xs ++ replaceE n e' ys := by
  induction xs with
  | nil => rfl
  | cons pr rest ih =>
    rcases pr with ⟨a, e⟩
    have ha : ¬(a = n) := by
      intro hc
      exact h (by simp [hc])
    rw [List.cons_append, replaceE, if_neg ha, List.cons_append]
    rw [ih fun hc => h (by simp at hc ⊢; exact Or.inr hc)]

theorem map_fst_emptyPair (l : List (String × Entry)) :
    (l.map emptyPair).map Prod.fst = l.map Prod.fst := by
  rw [List.map_map]
  apply List.map_congr_left
  intro pr _
  rfl

theorem wfL_mem (es : List (String × Entry)) (h : wfL es = true) :
    ∀ pr ∈ es, wfE pr.2 = true := by
  induction es with
  | nil => simp
  | cons pr rest ih =>
    rw [wfL, Bool.and_eq_true_iff] at h
    intro q hq
    rcases List.mem_cons.mp hq with rfl | hq
    · exact h.1
    · exact ih h.2 q hq

theorem fileNames_emptied (es : List (String × Entry)) :
    entryFileNames (es.map emptyPair) = entryFileNames es := by
  induction es with
  | nil => rfl
  | cons pr rest ih =>
    rcases pr with ⟨n, e⟩
    rcases e with _ | cs
    · simp [entryFileNames, emptyPair, emptyE] at ih ⊢
      exact ih
    · simp [entryFileNames, emptyPair, emptyE] at ih ⊢
      exact ih

theorem dirNames_filter_emptied (es : List (String × Entry)) :
    (((es.map emptyPair).filter fun pr =>
        match pr.2 with
        | .dir _ => true
        | .file => false).map Prod.fst) = entryDirNames es := by
  induction es with
  | nil => rfl
  | cons pr rest ih =>
    rcases pr with ⟨n, e⟩
    rcases e with _ | cs
    · simp only [List.map_cons, emptyPair, emptyE, List.filter_cons, entryDirNames,
        List.filterMap_cons] at ih ⊢
      exact ih
    · simp only [List.map_cons, emptyPair, emptyE, List.filter_cons, entryDirNames,
        List.filterMap_cons, List.map_cons] at ih ⊢
      rw [if_pos trivial, List.map_cons, ih]

theorem mem_fileNames_mem_names (f : String) (es : List (String × Entry))
    (h : f ∈ entryFileNames es) : f ∈ es.map Prod.fst := by
  rw [entryFileNames] at h
  rcases List.mem_filterMap.mp h with ⟨pr, hpr, hf⟩
  rcases pr with ⟨n, e⟩
  rcases e with _ | cs
  · have : n = f := Option.some.inj hf
    subst this
    exact List.mem_map.mpr ⟨(n, Entry.file), hpr, rfl⟩
  · exact absurd hf (by simp)

theorem applyRemove_single (f : String) (X : List (String × Entry)) :
    applyRemove [f] (Entry.dir X) =
      match lookupE f X with
      | some .file => some (Entry.dir (eraseE f X))
      | _ => none := rfl

theorem applyRmdir_single (f : String) (X : List (String × Entry)) :
    applyRmdir [f] (Entry.dir X) =
      match lookupE f X with
      | some (.dir []) => some (Entry.dir (eraseE f X))
      | _ => none := rfl

theorem runOps_cons_frame (L : List FsOp) (n : String) (e : Entry) :
    ∀ (X X' : List (String × Entry)),
      (∀ op ∈ L, ∃ f, ¬(f = n) ∧ (op = FsOp.rm [f] ∨ op = FsOp.rd [f])) →
      runOps L (Entry.dir X) = some (Entry.dir X') →
      runOps L (Entry.dir ((n, e) :: X)) = some (Entry.dir ((n, e) :: X')) := by
  induction L with
  | nil =>
    intro X X' _ hrun
    rw [runOps] at hrun ⊢
    have : Entry.dir X = Entry.dir X' := Option.some.inj hrun
    rw [Entry.dir.injEq] at this
    rw [this]
  | cons op L' ih =>
    intro X X' hL hrun
    rcases hL op (by simp) with ⟨f, hf, hop | hop⟩
    · subst hop
      rw [runOps, show applyOp (FsOp.rm [f]) = applyRemove [f] from rfl,
        applyRemove_single] at hrun
      rcases hlf : lookupE f X with _ | ch
      · rw [hlf] at hrun
        simp at hrun
      · rcases ch with _ | cs
        · rw [hlf] at hrun
          simp only [Option.some_bind] at hrun
          rw [runOps, show applyOp (FsOp.rm [f]) = applyRemove [f] from rfl,
            applyRemove_single]
          have hnf : ¬(n = f) := fun hc => hf hc.symm
          rw [show lookupE f ((n, e) :: X) = lookupE f X from by rw [lookupE, if_neg hnf]]
          rw [hlf]
          simp only [Option.some_bind]
          rw [show eraseE f ((n, e) :: X) = (n, e) :: eraseE f X from by
            rw [eraseE, if_neg hnf]]
          exact ih (eraseE f X) X' (fun o ho => hL o (by simp [ho])) hrun
        · rw [hlf] at hrun
          simp at hrun
    · subst hop
      rw [runOps, show applyOp (FsOp.rd [f]) = applyRmdir [f] from rfl,
        applyRmdir_single] at hrun
      rcases hlf : lookupE f X with _ | ch
      · rw [hlf] at hrun
        simp at hrun
      · rcases ch with _ | cs
        · rw [hlf] at hrun
          simp at hrun
        · rcases cs with _ | ⟨c0, cs⟩
          · rw [hlf] at hrun
            simp only [Option.some_bind] at hrun
            rw [runOps, show applyOp (FsOp.rd [f]) = applyRmdir [f] from rfl,
              applyRmdir_single]
            have hnf : ¬(n = f) := fun hc => hf hc.symm
            rw [show lookupE f ((n, e) :: X) = lookupE f X from by rw [lookupE, if_neg hnf]]
            rw [hlf]
            simp only [Option.some_bind]
            rw [show eraseE f ((n, e) :: X) = (n, e) :: eraseE f X from by
              rw [eraseE, if_neg hnf]]
            exact ih (eraseE f X) X' (fun o ho => hL o (by simp [ho])) hrun
          · rw [hlf] at hrun
            simp at hrun

theorem run_rms_phase (X : List (String × Entry)) :
    ((X.map Prod.fst).Nodup) →
    runOps ((entryFileNames X).map fun f => FsOp.rm [f]) (Entry.dir X) =
      some (Entry.dir (X.filter fun pr =>
        match pr.2 with
        | .dir _ => true
        | .file => false)) := by
  induction X with
  | nil => intro _; rfl
  | cons pr rest ih =>
    intro hnd
    rcases pr with ⟨n, e⟩
    rw [List.map_cons] at hnd
    rw [List.nodup_cons] at hnd
    rcases hnd with ⟨hnmem, hnd⟩
    rcases e with _ | cs
    · rw [show entryFileNames ((n, Entry.file) :: rest) = n :: entryFileNames rest from by
        rw [entryFileNames, List.filterMap_cons]
        rfl]
      rw [List.map_cons, runOps,
        show applyOp (FsOp.rm [n]) = applyRemove [n] from rfl, applyRemove_single,
        lookupE_cons_self]
      rw [show eraseE n ((n, Entry.file) :: rest) = rest from by rw [eraseE, if_pos rfl]]
      simp only [Option.some_bind]
      rw [ih hnd]
      rw [List.filter_cons]
      rfl
    · rw [show entryFileNames ((n, Entry.dir cs) :: rest) = entryFileNames rest from by
        rw [entryFileNames, List.filterMap_cons]
        rfl]
      have hfr : ∀ op ∈ (entryFileNames rest).map fun f => FsOp.rm [f],
          ∃ f, ¬(f = n) ∧ (op = FsOp.rm [f] ∨ op = FsOp.rd [f]) := by
        intro op hop
        rcases List.mem_map.mp hop with ⟨f, hf, rfl⟩
        refine ⟨f, ?_, Or.inl rfl⟩
        intro hc
        subst hc
        exact hnmem (mem_fileNames_mem_names f rest hf)
      have := runOps_cons_frame ((entryFileNames rest).map fun f => FsOp.rm [f])
        n (Entry.dir cs) rest _ hfr (ih hnd)
      rw [this]
      rw [List.filter_cons]
      rfl

theorem run_rds_phase (Y : List (String × Entry)) :
    (∀ pr ∈ Y, pr.2 = Entry.dir []) →
    runOps ((Y.map Prod.fst).map fun d => FsOp.rd [d]) (Entry.dir Y) =
      some (Entry.dir []) := by
  induction Y with
  | nil => intro _; rfl
  | cons pr rest ih =>
    intro hshape
    rcases pr with ⟨n, e⟩
    have he : e = Entry.dir [] := hshape (n, e) (by simp)
    subst he
    rw [List.map_cons, List.map_cons, runOps,
      show applyOp (FsOp.rd [n]) = applyRmdir [n] from rfl, applyRmdir_single,
      lookupE_cons_self]
    rw [show eraseE n ((n, Entry.dir []) :: rest) = rest from by rw [eraseE, if_pos rfl]]
    simp only [Option.some_bind]
    exact ih fun q hq => hshape q (by simp [hq])

theorem run_final (es : List (String × Entry)) (hnd : (es.map Prod.fst).Nodup) :
    runOps (tripleOps ([], entryDirNames es, entryFileNames es))
      (Entry.dir (es.map emptyPair)) = some (Entry.dir []) := by
  rw [tripleOps]
  simp only [List.nil_append]
  rw [runOps_append]
  have hndX : ((es.map emptyPair).map Prod.fst).Nodup := by
    rw [map_fst_emptyPair]
    exact hnd
  have hA := run_rms_phase (es.map emptyPair) hndX
  rw [fileNames_emptied] at hA
  rw [hA]
  simp only [Option.some_bind]
  have hY := dirNames_filter_emptied es
  rw [← hY]
  apply run_rds_phase
  intro pr hpr
  rcases List.mem_filter.mp hpr with ⟨hprmem, hcond⟩
  rcases List.mem_map.mp hprmem with ⟨q, _, rfl⟩
  rcases q with ⟨m, qe⟩
  rcases qe with _ | qs
  · simp [emptyPair, emptyE] at hcond
  · rfl

theorem clean_children_gen (work : List (String × Entry)) :
    ∀ (done : List (String × Entry)),
      (∀ n cs, (n, Entry.dir cs) ∈ work →
        runOps (cleanOps (Entry.dir cs)) (Entry.dir cs) = some (Entry.dir [])) →
      (((done ++ work).map Prod.fst).Nodup) →
      runOps ((walkChildren [] work).flatMap tripleOps)
        (Entry.dir (done.map emptyPair ++ work)) =
        some (Entry.dir ((done ++ work).map emptyPair)) := by
  induction work with
  | nil =>
    intro done _ _
    rw [walkChildren]
    simp [runOps]
  | cons pr rest ih =>
    intro done hIH hnd
    rcases pr with ⟨n, e⟩
    rw [walkChildren]
    simp only [List.nil_append]
    rw [List.flatMap_append, runOps_append]
    have hmid : n ∉ done.map Prod.fst ∧ n ∉ rest.map Prod.fst := by
      have h1 : ((done.map Prod.fst) ++ n :: (rest.map Prod.fst)).Nodup := by
        simpa using hnd
      have h2 := List.nodup_middle.mp h1
      rw [List.nodup_cons] at h2
      rcases h2 with ⟨hmem, _⟩
      constructor
      · intro hc
        exact hmem (List.mem_append.mpr (Or.inl hc))
      · intro hc
        exact hmem (List.mem_append.mpr (Or.inr hc))
    rcases e with _ | cs
    · rw [show walkBU [n] Entry.file = [] from rfl]
      simp only [List.flatMap_nil, runOps, Option.some_bind]
      have htree : (done.map emptyPair) ++ (n, Entry.file) :: rest =
          ((done ++ [(n, Entry.file)]).map emptyPair) ++ rest := by
        rw [List.map_append]
        simp [emptyPair, emptyE, List.append_assoc]
      rw [htree]
      have hres : ((done ++ (n, Entry.file) :: rest).map emptyPair) =
          (((done ++ [(n, Entry.file)]) ++ rest).map emptyPair) := by
        rw [List.append_assoc]
        simp
      rw [hres]
      apply ih (done ++ [(n, Entry.file)])
      · intro m cs hmem
        exact hIH m cs (by simp [hmem])
      · rw [List.append_assoc]
        simpa using hnd
    · rw [cleanOps_shift [n] (Entry.dir cs)]
      have hget : getAt [n] (Entry.dir (done.map emptyPair ++ (n, Entry.dir cs) :: rest)) =
          some (Entry.dir cs) := by
        rw [getAt]
        rw [lookupE_append_right n _ _ (by rw [map_fst_emptyPair]; exact hmid.1)]
        rw [lookupE_cons_self]
        rfl
      rw [runOps_prefixed (cleanOps (Entry.dir cs)) [n] _ (Entry.dir cs)
        (cleanOps_path_ne (Entry.dir cs)) hget]
      rw [hIH n cs (by simp)]
      simp only [Option.some_bind]
      rw [show setAt [n] (Entry.dir []) (Entry.dir (done.map emptyPair ++
          (n, Entry.dir cs) :: rest)) =
          (lookupE n (done.map emptyPair ++ (n, Entry.dir cs) :: rest)).bind
            fun ch => (setAt [] (Entry.dir []) ch).map
              fun ch' => Entry.dir (replaceE n ch' (done.map emptyPair ++
                (n, Entry.dir cs) :: rest)) from rfl]
      rw [lookupE_append_right n _ _ (by rw [map_fst_emptyPair]; exact hmid.1)]
      rw [lookupE_cons_self]
      simp only [Option.some_bind, setAt, Option.map_some']
      rw [replaceE_append_right n _ _ _ (by rw [map_fst_emptyPair]; exact hmid.1)]
      rw [replaceE_cons_self]
      have htree : (done.map emptyPair) ++ (n, Entry.dir []) :: rest =
          ((done ++ [(n, Entry.dir cs)]).map emptyPair) ++ rest := by
        rw [List.map_append]
        simp [emptyPair, emptyE, List.append_assoc]
      rw [htree]
      have hres : ((done ++ (n, Entry.dir cs) :: rest).map emptyPair) =
          (((done ++ [(n, Entry.dir cs)]) ++ rest).map emptyPair) := by
        rw [List.append_assoc]
        simp
      rw [hres]
      apply ih (done ++ [(n, Entry.dir cs)])
      · intro m ms hmem
        exact hIH m ms (by simp [hmem])
      · rw [List.append_assoc]
        simpa using hnd

theorem clean_tree : ∀ (k : Nat) (es : List (String × Entry)),
    sizeOf (Entry.dir es) ≤ k → wfE (Entry.dir es) = true →
    runOps (cleanOps (Entry.dir es)) (Entry.dir es) = some (Entry.dir []) := by
  intro k
  induction k with
  | zero =>
    intro es h _
    exfalso
    have h2 : sizeOf (Entry.dir es) = 1 + sizeOf es := by simp
    omega
  | succ k ih =>
    intro es hsize hwf
    rw [wfE, Bool.and_eq_true_iff] at hwf
    rcases hwf with ⟨hndB, hwl⟩
    have hnd : (es.map Prod.fst).Nodup := (namesNodupB_iff _).mp hndB
    have hIH : ∀ n cs, (n, Entry.dir cs) ∈ es →
        runOps (cleanOps (Entry.dir cs)) (Entry.dir cs) = some (Entry.dir []) := by
      intro n cs hmem
      apply ih cs
      · have h1 : sizeOf ((n, Entry.dir cs)) < sizeOf es := List.sizeOf_lt_of_mem hmem
        have h2 : sizeOf (Entry.dir es) = 1 + sizeOf es := by simp
        have h3 : sizeOf ((n, Entry.dir cs)) = 1 + sizeOf n + sizeOf (Entry.dir cs) := by
          simp
        omega
      · exact wfL_mem es hwl (n, Entry.dir cs) hmem
    rw [cleanOps, walkBU, List.flatMap_append, runOps_append]
    have hch := clean_children_gen es [] hIH (by simpa using hnd)
    simp only [List.map_nil, List.nil_append] at hch
    rw [hch]
    simp only [Option.some_bind, List.flatMap_cons, List.flatMap_nil, List.append_nil]
    exact run_final es hnd

/-- C9: cleaning an existing well-formed directory removes every nested file
and subdirectory bottom-up — every `os.rmdir` finds its directory already
empty, so no `OSError` occurs — and leaves the directory itself existing
with zero entries; cleaning a non-existent path changes nothing and raises
no error, printing a message instead. -/
theorem claim_C9 (path : String) :
    (∀ es : List (String × Entry), wfE (Entry.dir es) = true →
      clean_directories path (some (Entry.dir es)) =
        some (some (Entry.dir []), ["path exists - removing contents of " ++ path])) ∧
    clean_directories path none =
      some (none,
        ["Path " ++ path ++ " does not exist. This folder has to be created manually."]) := by
  constructor
  · intro es hwf
    rw [clean_directories]
    rw [clean_tree (sizeOf (Entry.dir es)) es le_rfl hwf]
    rfl
  · rfl

/-- C9 witness: `claim_C9` applied to a directory holding a file, a nested
subdirectory tree, and an empty subdirectory. -/
theorem claim_C9_witness :
    clean_directories "work" (some (Entry.dir
      [("a", Entry.file),
       ("sub", Entry.dir [("b", Entry.file), ("s2", Entry.dir [("c", Entry.file)])]),
       ("d", Entry.dir [])])) =
      some (some (Entry.dir []), ["path exists - removing contents of " ++ "work"]) :=
  (claim_C9 "work").1
    [("a", Entry.file),
     ("sub", Entry.dir [("b", Entry.file), ("s2", Entry.dir [("c", Entry.file)])]),
     ("d", Entry.dir [])]
    (by simp [wfE, wfL, namesNodupB, List.contains])

